import Mathlib

/-!
# The anonymous-function naming pass of `libllvmext`

A shallow embedding of `NameAnonFunctionPass.cpp`: the class `ModuleHasher` with its
lazily computed, cached digest, and `nameUnamedFunctions`, the loop that gives every
function without a name the name `anon.<digest>.<counter>`.

The pass is written against the LLVM API.  The parts of that API the pass touches
(modules, the name of a value and the symbol table that grants it, `MD5`) are not
part of the sources; they are modelled here, each under a doc comment that says so.
-/

set_option maxRecDepth 100000

namespace NameAnonFunctionPass

/-! ## The LLVM side: values, modules -/

/-- Modelled from the spec: an LLVM `Function` or `GlobalVariable`, reduced to the three
attributes the pass reads.  `name` is the byte string `getName()` returns; a value
without a name has the empty name.  `isDeclaration` says that no body or initializer
is present, `hasLocalLinkage` that the value is invisible outside the module. -/
structure GlobalValue where
  name : String
  isDeclaration : Bool
  hasLocalLinkage : Bool
deriving DecidableEq, Repr

namespace GlobalValue

/-- Modelled from the spec: `hasName()`, a value has a name when its name is not empty. -/
def hasName (V : GlobalValue) : Bool := V.name != ""

/-- Modelled from the spec: `getName()`. -/
def getName (V : GlobalValue) : String := V.name

/-- The value with its name replaced by `N` and nothing else changed. -/
def withName (V : GlobalValue) (N : String) : GlobalValue := { V with name := N }

end GlobalValue

/-- Modelled from the spec: an LLVM `Module`, the ordered functions (what
`for (auto &F : M)` walks) and the ordered global variables (`M.globals()`). -/
structure Module where
  functions : List GlobalValue
  globals : List GlobalValue
deriving DecidableEq, Repr

/-! ## The LLVM side: the symbol table of a module

The pass names a function with `F.setName(...)`.  For a function that belongs to a
module, LLVM routes the call through the symbol table of the module, which is shared by
functions and global variables and holds every name at most once: a requested name that
is already there is not given twice, the value receives the name followed by `.` and
the next free value of the counter `LastUnique` of the table. -/

/-- Modelled from the spec: the names in the symbol table of a module, those of its
functions and global variables that have a name. -/
def Module.symbolTable (M : Module) : List String :=
  ((M.functions ++ M.globals).filter GlobalValue.hasName).map GlobalValue.name

/-- Modelled from the spec: the loop of `ValueSymbolTable::makeUniqueName` for a global
value.  Each round increments `LastUnique` and tries the name followed by `.` and the
counter; a name that is not in the table ends the loop.  The table `vmap` is finite, so
at most `vmap.length` rounds fail (`makeUniqueName_fresh`); `fuel` starts there.  The
result is the name chosen and the counter afterwards.  `LastUnique` is an `unsigned`
in LLVM and a natural number here; the `.` is what LLVM writes on every target but
NVPTX. -/
def makeUniqueName (vmap : List String) (Name : String) : Nat → Nat → String × Nat
  | 0, LastUnique => (Name ++ "." ++ toString (LastUnique + 1), LastUnique + 1)
  | fuel + 1, LastUnique =>
    if Name ++ "." ++ toString (LastUnique + 1) ∈ vmap then
      makeUniqueName vmap Name fuel (LastUnique + 1)
    else (Name ++ "." ++ toString (LastUnique + 1), LastUnique + 1)

/-- Modelled from the spec: `ValueSymbolTable::createValueName`.  A name that is not in
the table is taken as it is; otherwise there is a naming conflict and the value is
renamed by `makeUniqueName`. -/
def createValueName (vmap : List String) (Name : String) (LastUnique : Nat) : String × Nat :=
  if Name ∈ vmap then makeUniqueName vmap Name vmap.length LastUnique
  else (Name, LastUnique)

/-- Modelled from the spec: `V.setName(NewName)` for a value `V` without a name that
belongs to the module `M` (the only call the pass makes, line 58).  The spec says
"assign it to the function"; the name assigned is the one the symbol table of the
module grants.  The result is the value as renamed and the counter `LastUnique` of
the table afterwards; nothing else of the module is touched. -/
def setName (M : Module) (LastUnique : Nat) (V : GlobalValue) (NewName : String) :
    GlobalValue × Nat :=
  let r := createValueName M.symbolTable NewName LastUnique
  (V.withName r.1, r.2)

/-! ## The LLVM side: `llvm::MD5`

`llvm/Support/MD5.h` is not part of the sources.  The digest is the MD5 of RFC 1321,
computed on natural numbers with every 32-bit operation reduced modulo `2^32`; the
theorems `md5hex_empty` and `md5hex_abc` below check it on the test suite of the RFC. -/

/-- Modelled from the spec: the "name bytes" that are fed into the accumulator, the
UTF-8 encoding of the name, each byte a natural number below 256. -/
def nameBytes (s : String) : List Nat :=
  (s.data.flatMap String.utf8EncodeChar).map UInt8.toNat

namespace MD5

/-- Addition of 32-bit words. -/
def add32 (a b : Nat) : Nat := (a + b) % 2 ^ 32

/-- Bitwise complement of a 32-bit word. -/
def not32 (a : Nat) : Nat := (2 ^ 32 - 1) - a % 2 ^ 32

/-- Left rotation of a 32-bit word. -/
def rotl32 (x s : Nat) : Nat :=
  ((x <<< s) % 2 ^ 32) ||| ((x % 2 ^ 32) >>> (32 - s))

/-- The per-step rotation amounts of RFC 1321. -/
def shifts : List Nat :=
  [7, 12, 17, 22, 7, 12, 17, 22, 7, 12, 17, 22, 7, 12, 17, 22,
   5, 9, 14, 20, 5, 9, 14, 20, 5, 9, 14, 20, 5, 9, 14, 20,
   4, 11, 16, 23, 4, 11, 16, 23, 4, 11, 16, 23, 4, 11, 16, 23,
   6, 10, 15, 21, 6, 10, 15, 21, 6, 10, 15, 21, 6, 10, 15, 21]

/-- The per-step additive constants of RFC 1321, `floor (2^32 * |sin (i + 1)|)`. -/
def sines : List Nat :=
  [0xd76aa478, 0xe8c7b756, 0x242070db, 0xc1bdceee,
   0xf57c0faf, 0x4787c62a, 0xa8304613, 0xfd469501,
   0x698098d8, 0x8b44f7af, 0xffff5bb1, 0x895cd7be,
   0x6b901122, 0xfd987193, 0xa679438e, 0x49b40821,
   0xf61e2562, 0xc040b340, 0x265e5a51, 0xe9b6c7aa,
   0xd62f105d, 0x02441453, 0xd8a1e681, 0xe7d3fbc8,
   0x21e1cde6, 0xc33707d6, 0xf4d50d87, 0x455a14ed,
   0xa9e3e905, 0xfcefa3f8, 0x676f02d9, 0x8d2a4c8a,
   0xfffa3942, 0x8771f681, 0x6d9d6122, 0xfde5380c,
   0xa4beea44, 0x4bdecfa9, 0xf6bb4b60, 0xbebfbc70,
   0x289b7ec6, 0xeaa127fa, 0xd4ef3085, 0x04881d05,
   0xd9d4d039, 0xe6db99e5, 0x1fa27cf8, 0xc4ac5665,
   0xf4292244, 0x432aff97, 0xab9423a7, 0xfc93a039,
   0x655b59c3, 0x8f0ccc92, 0xffeff47d, 0x85845dd1,
   0x6fa87e4f, 0xfe2ce6e0, 0xa3014314, 0x4e0811a1,
   0xf7537e82, 0xbd3af235, 0x2ad7d2bb, 0xeb86d391]

/-- The four 32-bit chaining words. -/
structure Words where
  a : Nat
  b : Nat
  c : Nat
  d : Nat
deriving DecidableEq, Repr

/-- The initial chaining words. -/
def start : Words := ⟨0x67452301, 0xefcdab89, 0x98badcfe, 0x10325476⟩

/-- Little-endian 32-bit word number `g` of a 64-byte block. -/
def word (block : List Nat) (g : Nat) : Nat :=
  block.getD (4 * g) 0 + 2 ^ 8 * block.getD (4 * g + 1) 0
    + 2 ^ 16 * block.getD (4 * g + 2) 0 + 2 ^ 24 * block.getD (4 * g + 3) 0

/-- One of the 64 steps of the compression function. -/
def step (block : List Nat) (st : Words) (i : Nat) : Words :=
  let f :=
    if i < 16 then (st.b &&& st.c) ||| (not32 st.b &&& st.d)
    else if i < 32 then (st.d &&& st.b) ||| (not32 st.d &&& st.c)
    else if i < 48 then st.b ^^^ st.c ^^^ st.d
    else st.c ^^^ (st.b ||| not32 st.d)
  let g :=
    if i < 16 then i
    else if i < 32 then (5 * i + 1) % 16
    else if i < 48 then (3 * i + 5) % 16
    else (7 * i) % 16
  let t := add32 (add32 (add32 f st.a) (sines.getD i 0)) (word block g)
  ⟨st.d, add32 st.b (rotl32 t (shifts.getD i 0)), st.b, st.c⟩

/-- The compression function: 64 steps over one block, added to the chaining words. -/
def compress (st : Words) (block : List Nat) : Words :=
  let r := (List.range 64).foldl (step block) st
  ⟨add32 st.a r.a, add32 st.b r.b, add32 st.c r.c, add32 st.d r.d⟩

/-- The `n` low bytes of a number, least significant first. -/
def leBytes : Nat → Nat → List Nat
  | 0, _ => []
  | n + 1, x => x % 256 :: leBytes n (x / 256)

/-- The message followed by the byte 0x80, zero bytes up to length 56 modulo 64, and
the bit length as a 64-bit little-endian number. -/
def pad (msg : List Nat) : List Nat :=
  msg ++ 0x80 :: List.replicate ((119 - msg.length % 64) % 64) 0
    ++ leBytes 8 ((8 * msg.length) % 2 ^ 64)

/-- The first `n` 64-byte blocks of a byte string. -/
def blocks : Nat → List Nat → List (List Nat)
  | 0, _ => []
  | n + 1, bs => bs.take 64 :: blocks n (bs.drop 64)

/-- Modelled from the spec: the 128-bit MD5 digest (RFC 1321) of a byte string, as its
16 bytes; `llvm/Support/MD5.h` is not part of the sources. -/
def digest (msg : List Nat) : List Nat :=
  let p := pad msg
  let st := (blocks (p.length / 64) p).foldl compress start
  leBytes 4 st.a ++ leBytes 4 st.b ++ leBytes 4 st.c ++ leBytes 4 st.d

/-- The lowercase hexadecimal digit of a number below 16. -/
def hexDigit (n : Nat) : Char := "0123456789abcdef".data.getD n '0'

/-- Modelled from the spec: `MD5::stringifyResult`, the digest rendered "as a
fixed-width lowercase hexadecimal string", two digits per byte. -/
def stringifyResult (bytes : List Nat) : String :=
  String.mk (bytes.flatMap fun b => [hexDigit (b / 16), hexDigit (b % 16)])

end MD5

/-- Modelled from the spec: an `llvm::MD5` accumulator, as the bytes fed so far. -/
structure MD5 where
  fed : List Nat
deriving DecidableEq, Repr

/-- Modelled from the spec: a fresh accumulator (`MD5 Hasher;`), nothing fed yet. -/
def MD5.fresh : MD5 := ⟨[]⟩

/-- Modelled from the spec: the streaming `Hasher.update(Name)`, which appends the bytes
of the name to what was fed before. -/
def MD5.update (Hasher : MD5) (Name : String) : MD5 := ⟨Hasher.fed ++ nameBytes Name⟩

/-- Modelled from the spec: `Hasher.final(Hash)`, the 16 digest bytes of everything
fed. -/
def MD5.final (Hasher : MD5) : List Nat := MD5.digest Hasher.fed

/-- The hexadecimal MD5 digest of a string. -/
def md5hex (s : String) : String := MD5.stringifyResult (MD5.digest (nameBytes s))

/-! ## `ModuleHasher` -/

/-- The class `ModuleHasher`: the field `TheHash`.  The module the C++ object refers to
(`Module &TheModule`) is mutable state outside the object and is passed to `get`. -/
structure ModuleHasher where
  TheHash : String
deriving DecidableEq, Repr

namespace ModuleHasher

/-- The constructor `ModuleHasher(Module &M)`: `TheHash` starts empty. -/
def create : ModuleHasher := ⟨""⟩

/-- The body of both `for` loops of `get`: a declaration, a value with local linkage
and a value without a name are skipped, any other value feeds its name. -/
def feed (Hasher : MD5) (V : GlobalValue) : MD5 :=
  if V.isDeclaration || V.hasLocalLinkage || !V.hasName then Hasher
  else Hasher.update V.getName

/-- The method `get`, on the current state of the module: the returned string and the
hasher afterwards. -/
def get (H : ModuleHasher) (TheModule : Module) : String × ModuleHasher :=
  if !(H.TheHash == "") then
    (H.TheHash, H)
  else
    let Hasher := TheModule.functions.foldl feed MD5.fresh
    let Hasher := TheModule.globals.foldl feed Hasher
    let Result := MD5.stringifyResult Hasher.final
    (Result, ⟨Result⟩)

/-- A sequence of calls of `get` on one hasher, the module being in the listed states:
the strings returned, in order. -/
def gets : ModuleHasher → List Module → List String
  | _, [] => []
  | H, M :: Ms => (H.get M).1 :: gets (H.get M).2 Ms

end ModuleHasher

/-! ## `nameUnamedFunctions` -/

/-- The value of an `int` expression brought back into the 32 bits of an `int`
(two's complement).  Overflow of a signed integer is undefined in C++; the model takes
the wrapped value, which is what the supported targets compute. -/
def wrapInt32 (x : Int) : Int := (x + 2147483648) % 4294967296 - 2147483648

/-- The loop `for (auto &F : M)` of `nameUnamedFunctions`.  `done` are the functions
already visited (as the loop left them), `F :: rest` the ones still to visit, so the
module is `done ++ F :: rest` when `ModuleHash.get()` and `F.setName` run.  `count` is
the C++ `int` counter: `Twine(count++)` is the decimal rendering of the value before
the increment, and the increment wraps at 32 bits.  `LastUnique` is the counter of the
symbol table of the module. -/
def renameLoop (globals : List GlobalValue) :
    List GlobalValue → List GlobalValue → ModuleHasher → Int → Nat → Bool → Bool × Module
  | done, [], _, _, _, Changed => (Changed, ⟨done, globals⟩)
  | done, F :: rest, ModuleHash, count, LastUnique, Changed =>
    if F.hasName then
      renameLoop globals (done ++ [F]) rest ModuleHash count LastUnique Changed
    else
      let r := ModuleHash.get ⟨done ++ F :: rest, globals⟩
      let s := setName ⟨done ++ F :: rest, globals⟩ LastUnique F
        ("anon." ++ r.1 ++ "." ++ toString count)
      renameLoop globals (done ++ [s.1]) rest r.2 (wrapInt32 (count + 1)) s.2 true

/-- The function `nameUnamedFunctions(Module &M)`: the returned `Changed` and the
module as the run leaves it.  `count` starts at 0; the counter `LastUnique` of the
symbol table is taken at 0, its value in a table that never had to rename a value. -/
def nameUnamedFunctions (M : Module) : Bool × Module :=
  renameLoop M.globals [] M.functions ModuleHasher.create 0 0 false

/-- The method `NameAnonFunction::runOnModule`. -/
def runOnModule (M : Module) : Bool × Module := nameUnamedFunctions M

/-! ## Vocabulary of the statements -/

/-- The fingerprint a freshly constructed `ModuleHasher` returns for a module. -/
def fingerprint (M : Module) : String := (ModuleHasher.create.get M).1

/-- The number of functions without a name in a list. -/
def countUnnamed (Fs : List GlobalValue) : Nat := (Fs.filter fun F => !F.hasName).length

/-- The values whose name is hashed: defined, not local, named. -/
def qualifies (V : GlobalValue) : Bool :=
  !V.isDeclaration && !V.hasLocalLinkage && V.hasName

/-- The names of the qualifying values of a list, in order. -/
def qualifyingNames (Vs : List GlobalValue) : List String :=
  (Vs.filter qualifies).map GlobalValue.name

/-- The byte string a fresh hasher feeds to MD5 for a module: the bytes of the
qualifying function names, then of the qualifying global names, with no separators. -/
def hashedBytes (M : Module) : List Nat :=
  (qualifyingNames M.functions ++ qualifyingNames M.globals).flatMap nameBytes

/-- The name the pass asks for, built from the digest and the counter. -/
def anonName (h : String) (count : Int) : String := "anon." ++ h ++ "." ++ toString count

/-- What the loop of `nameUnamedFunctions` makes of the functions still to visit once
the digest `h` is fixed: the recursion that the loop is proved to compute. -/
def renamed (globals : List GlobalValue) (h : String) :
    List GlobalValue → List GlobalValue → Int → Nat → List GlobalValue
  | _, [], _, _ => []
  | done, F :: rest, count, LastUnique =>
    if F.hasName then F :: renamed globals h (done ++ [F]) rest count LastUnique
    else
      (setName ⟨done ++ F :: rest, globals⟩ LastUnique F (anonName h count)).1 ::
        renamed globals h
          (done ++ [(setName ⟨done ++ F :: rest, globals⟩ LastUnique F (anonName h count)).1])
          rest (wrapInt32 (count + 1))
          (setName ⟨done ++ F :: rest, globals⟩ LastUnique F (anonName h count)).2

/-- How a run may change a function: one that has a name is kept as it is, one that
has none receives a name and keeps its other attributes. -/
def Renames (F G : GlobalValue) : Prop :=
  (F.hasName = true ∧ G = F) ∨
  (F.hasName = false ∧ G.hasName = true ∧ G = F.withName G.name)

/-- The module of the scenario of section 8: defined external functions `A` and `B`,
three functions without a name, one defined external global `G`. -/
def scenario : Module :=
  ⟨[⟨"A", false, false⟩, ⟨"", false, false⟩, ⟨"B", false, false⟩, ⟨"", false, false⟩,
    ⟨"", false, false⟩], [⟨"G", false, false⟩]⟩

/-- A module in which a function with local linkage already carries the name the pass
builds for the first function without a name: nothing qualifies for hashing, so the
fingerprint is the MD5 of the empty input, `d41d8cd98f00b204e9800998ecf8427e`. -/
def takenNameModule : Module :=
  ⟨[⟨"anon.d41d8cd98f00b204e9800998ecf8427e.0", false, true⟩, ⟨"", false, false⟩], []⟩

/-- A module in which every function has a name. -/
def allNamedModule : Module :=
  ⟨[⟨"main", false, false⟩, ⟨"helper", false, true⟩, ⟨"puts", true, false⟩],
   [⟨"", false, true⟩, ⟨"table", false, false⟩]⟩

/-- The bytes `get` has fed to its accumulator when it calls `final`, on a fresh
hasher: the two loops of `get`, without the digest. -/
def fedBytes (M : Module) : List Nat :=
  (M.globals.foldl ModuleHasher.feed (M.functions.foldl ModuleHasher.feed MD5.fresh)).fed

/-- A function without a name whose new name enters the hash: defined, not local. -/
def feedsBack (F : GlobalValue) : Bool :=
  !F.hasName && !F.isDeclaration && !F.hasLocalLinkage

/-- The module with one more function at the end of its function list (a function
introduced between two runs of the pass). -/
def addFunction (M : Module) (F : GlobalValue) : Module :=
  ⟨M.functions ++ [F], M.globals⟩

/-- A module whose only function is defined, has local linkage and has no name. -/
def localAnonModule : Module := ⟨[⟨"", false, true⟩], []⟩

/-- The value of a list of decimal digit characters, most significant first. -/
def decVal : List Char → Nat
  | [] => 0
  | c :: cs => (c.toNat - 48) * 10 ^ cs.length + decVal cs

/-! ## The digest string -/

/-- The MD5 of the empty input, as in the test suite of RFC 1321. -/
theorem md5hex_empty : md5hex "" = "d41d8cd98f00b204e9800998ecf8427e" := by decide

/-- The MD5 of `abc` and of `message digest`, as in the test suite of RFC 1321. -/
theorem md5hex_abc :
    md5hex "abc" = "900150983cd24fb0d6963f7d28e17f72" ∧
    md5hex "message digest" = "f96b697d7cb7938d525a2f31aaf161d0" := by decide


theorem leBytes_length (n x : Nat) : (MD5.leBytes n x).length = n := by
  induction n generalizing x with
  | zero => rfl
  | succ n ih => simp [MD5.leBytes, ih]

theorem digest_length (msg : List Nat) : (MD5.digest msg).length = 16 := by
  simp [MD5.digest, leBytes_length]

theorem stringifyResult_length (bs : List Nat) :
    (MD5.stringifyResult bs).length = 2 * bs.length := by
  unfold MD5.stringifyResult
  show (bs.flatMap fun b => [MD5.hexDigit (b / 16), MD5.hexDigit (b % 16)]).length = _
  induction bs with
  | nil => rfl
  | cons b bs ih => simp only [List.flatMap_cons, List.length_append, ih]; simp; omega

theorem ne_empty_of_length {s : String} {n : Nat} (h : s.length = n + 1) : s ≠ "" := by
  rintro rfl
  simp at h

/-- The digest string of any accumulator has 32 characters. -/
theorem stringify_final_length (Hasher : MD5) :
    (MD5.stringifyResult Hasher.final).length = 32 := by
  simp [MD5.final, stringifyResult_length, digest_length]

/-! ## `ModuleHasher.get` -/

theorem get_create (M : Module) :
    ModuleHasher.create.get M = (fingerprint M, ⟨fingerprint M⟩) := by
  simp [fingerprint, ModuleHasher.get, ModuleHasher.create]

theorem fingerprint_eq (M : Module) :
    fingerprint M = MD5.stringifyResult
      ((M.globals.foldl ModuleHasher.feed
        (M.functions.foldl ModuleHasher.feed MD5.fresh)).final) := by
  simp [fingerprint, ModuleHasher.get, ModuleHasher.create]

theorem fingerprint_length (M : Module) : (fingerprint M).length = 32 := by
  rw [fingerprint_eq]; exact stringify_final_length _

theorem fingerprint_ne_empty (M : Module) : fingerprint M ≠ "" :=
  ne_empty_of_length (fingerprint_length M)

theorem get_cached (h : String) (hne : h ≠ "") (M : Module) :
    (ModuleHasher.mk h).get M = (h, ⟨h⟩) := by
  simp [ModuleHasher.get, hne]

theorem countUnnamed_cons (F : GlobalValue) (Fs : List GlobalValue) :
    countUnnamed (F :: Fs) = (if F.hasName then 0 else 1) + countUnnamed Fs := by
  unfold countUnnamed
  by_cases h : F.hasName <;> simp [List.filter_cons, h]; omega

/-! ## What is fed to MD5 -/

theorem foldl_feed (Vs : List GlobalValue) (Hasher : MD5) :
    Vs.foldl ModuleHasher.feed Hasher
      = ⟨Hasher.fed ++ (qualifyingNames Vs).flatMap nameBytes⟩ := by
  induction Vs generalizing Hasher with
  | nil => simp [qualifyingNames]
  | cons V Vs ih =>
    rw [List.foldl_cons, ih]
    cases hd : V.isDeclaration <;> cases hl : V.hasLocalLinkage <;> cases hn : V.hasName <;>
      simp [ModuleHasher.feed, qualifyingNames, qualifies, hd, hl, hn, MD5.update,
        GlobalValue.getName]

theorem fingerprint_hashedBytes (M : Module) :
    fingerprint M = MD5.stringifyResult (MD5.digest (hashedBytes M)) := by
  rw [fingerprint_eq, foldl_feed, foldl_feed]
  simp [MD5.final, MD5.fresh, hashedBytes]

/-! ## The decimal rendering of the counter -/

theorem digitChar_toNat (k : Nat) (h : k < 10) : (Nat.digitChar k).toNat - 48 = k := by
  interval_cases k <;> rfl

theorem decVal_toDigitsCore (fuel n : Nat) (ds : List Char) (h : n < fuel) :
    decVal (Nat.toDigitsCore 10 fuel n ds) = n * 10 ^ ds.length + decVal ds := by
  induction fuel generalizing n ds with
  | zero => omega
  | succ fuel ih =>
    unfold Nat.toDigitsCore
    have hd := digitChar_toNat (n % 10) (Nat.mod_lt _ (by decide))
    by_cases h0 : n / 10 = 0
    · simp only [h0, if_true, decVal, hd]
      have : n % 10 = n := by omega
      rw [this]
    · simp only [h0, if_false]
      rw [ih (n / 10) _ (by omega)]
      simp only [decVal, hd, List.length_cons, pow_succ]
      have hn : n = 10 * (n / 10) + n % 10 := (Nat.div_add_mod n 10).symm
      generalize n / 10 = q at hn
      generalize n % 10 = r at hn
      subst hn
      ring

theorem decVal_repr (n : Nat) : decVal (Nat.repr n).data = n := by
  have := decVal_toDigitsCore (n + 1) n [] (by omega)
  simpa [Nat.repr, Nat.toDigits, decVal] using this

/-- Different numbers have different decimal renderings. -/
theorem toString_nat_injective {a b : Nat} (h : toString a = toString b) : a = b := by
  have h2 : Nat.repr a = Nat.repr b := h
  rw [← decVal_repr a, ← decVal_repr b, h2]

/-! ## Counting the functions without a name -/

theorem countUnnamed_append (a b : List GlobalValue) :
    countUnnamed (a ++ b) = countUnnamed a + countUnnamed b := by
  simp [countUnnamed]

theorem countUnnamed_pos_iff (l : List GlobalValue) :
    0 < countUnnamed l ↔ ∃ F ∈ l, F.hasName = false := by
  simp [countUnnamed, List.length_pos_iff_exists_mem]

theorem countUnnamed_eq_zero_iff (l : List GlobalValue) :
    countUnnamed l = 0 ↔ ∀ F ∈ l, F.hasName = true := by
  simp [countUnnamed, List.filter_eq_nil_iff]

/-! ## The characters of a digest and of a decimal number -/

theorem hexDigit_mem (n : Nat) : MD5.hexDigit n ∈ "0123456789abcdef".data := by
  by_cases h : n < 16
  · interval_cases n <;> decide
  · have hlen : "0123456789abcdef".data.length ≤ n := by
      have : "0123456789abcdef".data.length = 16 := by decide
      omega
    unfold MD5.hexDigit
    rw [List.getD_eq_default _ _ hlen]
    decide

theorem stringifyResult_hex (bs : List Nat) :
    ∀ c ∈ (MD5.stringifyResult bs).data, c ∈ "0123456789abcdef".data := by
  intro c hc
  simp only [MD5.stringifyResult, List.mem_flatMap, List.mem_cons, List.mem_singleton,
    List.not_mem_nil, or_false] at hc
  obtain ⟨b, -, rfl | rfl⟩ := hc <;> exact hexDigit_mem _

theorem fingerprint_hex (M : Module) :
    ∀ c ∈ (fingerprint M).data, c ∈ "0123456789abcdef".data := by
  rw [fingerprint_eq]
  exact stringifyResult_hex _

theorem digitChar_mem (n : Nat) : Nat.digitChar (n % 10) ∈ "0123456789".data := by
  have h : n % 10 < 10 := Nat.mod_lt _ (by decide)
  generalize n % 10 = r at h
  interval_cases r <;> decide

theorem toDigitsCore_digits (fuel n : Nat) (ds : List Char)
    (h : ∀ c ∈ ds, c ∈ "0123456789".data) :
    ∀ c ∈ Nat.toDigitsCore 10 fuel n ds, c ∈ "0123456789".data := by
  induction fuel generalizing n ds with
  | zero => simpa [Nat.toDigitsCore] using h
  | succ fuel ih =>
    have hcons : ∀ c ∈ Nat.digitChar (n % 10) :: ds, c ∈ "0123456789".data := by
      intro c hc
      rcases List.mem_cons.1 hc with rfl | hc
      · exact digitChar_mem n
      · exact h c hc
    unfold Nat.toDigitsCore
    by_cases h0 : n / 10 = 0
    · simpa only [h0, if_true] using hcons
    · simpa only [h0, if_false] using ih (n / 10) _ hcons

theorem toDigitsCore_ne_nil (fuel n : Nat) (ds : List Char) :
    Nat.toDigitsCore 10 (fuel + 1) n ds ≠ [] := by
  induction fuel generalizing n ds with
  | zero => unfold Nat.toDigitsCore; by_cases h0 : n / 10 = 0 <;> simp [h0, Nat.toDigitsCore]
  | succ fuel ih =>
    unfold Nat.toDigitsCore
    by_cases h0 : n / 10 = 0
    · simp [h0]
    · simpa only [h0, if_false] using ih (n / 10) _

/-- The decimal rendering of a natural number is a non-empty string of digits. -/
theorem toString_nat_digits (k : Nat) :
    (toString k).data ≠ [] ∧ ∀ c ∈ (toString k).data, c ∈ "0123456789".data := by
  have e : (toString k).data = Nat.toDigitsCore 10 (k + 1) k [] := rfl
  rw [e]
  exact ⟨toDigitsCore_ne_nil k k [], toDigitsCore_digits (k + 1) k [] (by simp)⟩

/-! ## The qualifying names -/

theorem qualifyingNames_eq_nil (Vs : List GlobalValue)
    (h : ∀ V ∈ Vs, V.isDeclaration = true ∨ V.hasLocalLinkage = true ∨ V.hasName = false) :
    qualifyingNames Vs = [] := by
  simp only [qualifyingNames, List.map_eq_nil_iff, List.filter_eq_nil_iff]
  intro V hV
  rcases h V hV with h | h | h <;> simp [qualifies, h]

theorem fedBytes_eq_hashedBytes (M : Module) : fedBytes M = hashedBytes M := by
  simp [fedBytes, foldl_feed, MD5.fresh, hashedBytes]

theorem fingerprint_fedBytes (M : Module) :
    fingerprint M = MD5.stringifyResult (MD5.digest (fedBytes M)) := by
  rw [fedBytes_eq_hashedBytes, fingerprint_hashedBytes]

theorem qualifyingNames_cons (V : GlobalValue) (Vs : List GlobalValue) :
    qualifyingNames (V :: Vs)
      = if qualifies V then V.name :: qualifyingNames Vs else qualifyingNames Vs := by
  by_cases h : qualifies V <;> simp [qualifyingNames, List.filter_cons, h]

theorem qualifies_of_hasName_false {F : GlobalValue} (h : F.hasName = false) :
    qualifies F = false := by
  simp [qualifies, h]

/-! ## The decimal rendering of an `int` -/

theorem toString_int_negSucc (m : Nat) :
    toString (Int.negSucc m) = "-" ++ toString (m + 1) := rfl

theorem toString_nat_no_dot (n : Nat) : '.' ∉ (toString n).data := by
  intro h
  have := (toString_nat_digits n).2 '.' h
  revert this
  decide

theorem toString_int_no_dot (c : Int) : '.' ∉ (toString c).data := by
  cases c with
  | ofNat n => exact toString_nat_no_dot n
  | negSucc m =>
    rw [toString_int_negSucc]
    intro h
    simp only [String.data_append, List.mem_append] at h
    rcases h with h | h
    · revert h; decide
    · exact toString_nat_no_dot _ h

theorem toString_nat_head_ne_minus (n : Nat) (cs : List Char) :
    (toString n).data ≠ '-' :: cs := by
  intro h
  have := (toString_nat_digits n).2 '-' (by rw [h]; exact List.mem_cons_self _ _)
  revert this
  decide

/-- Different `int` values have different decimal renderings. -/
theorem toString_int_injective {a b : Int} (h : toString a = toString b) : a = b := by
  cases a with
  | ofNat n =>
    cases b with
    | ofNat m =>
      have : toString n = toString m := h
      rw [toString_nat_injective this]
    | negSucc m =>
      exfalso
      have h2 := congrArg String.data h
      rw [toString_int_negSucc] at h2
      exact toString_nat_head_ne_minus n _ h2
  | negSucc n =>
    cases b with
    | ofNat m =>
      exfalso
      have h2 := congrArg String.data h
      rw [toString_int_negSucc] at h2
      exact toString_nat_head_ne_minus m _ h2.symm
    | negSucc m =>
      rw [toString_int_negSucc, toString_int_negSucc] at h
      have h2 := congrArg String.data h
      simp only [String.data_append, List.append_cancel_left_eq] at h2
      have := toString_nat_injective (String.ext h2)
      have e : n = m := by omega
      rw [e]

theorem anonName_injective (h : String) {a b : Int} (e : anonName h a = anonName h b) :
    a = b := by
  apply toString_int_injective
  have := congrArg String.data e
  simp only [anonName, String.data_append, List.append_cancel_left_eq] at this
  exact String.ext this

theorem anonName_ne_empty (h : String) (c : Int) : anonName h c ≠ "" := by
  intro e
  have := congrArg String.data e
  simp [anonName] at this

/-- A name the pass asks for is never another such name followed by `.` and a number. -/
theorem anonName_ne_suffixed (h : String) (a b : Int) (N : Nat) :
    anonName h a ≠ anonName h b ++ "." ++ toString N := by
  intro e
  have h2 := congrArg String.data e
  simp only [anonName, String.data_append, List.append_assoc, List.append_cancel_left_eq] at h2
  apply toString_int_no_dot a
  rw [h2]
  simp

theorem suffixed_injective (Name : String) {a b : Nat}
    (e : Name ++ "." ++ toString a = Name ++ "." ++ toString b) : a = b := by
  apply toString_nat_injective
  have := congrArg String.data e
  simp only [String.data_append, List.append_assoc, List.append_cancel_left_eq] at this
  exact String.ext this

/-! ## The counter `count` -/

theorem wrapInt32_succ (x : Int) : wrapInt32 (wrapInt32 x + 1) = wrapInt32 (x + 1) := by
  unfold wrapInt32
  omega

theorem wrapInt32_natCast_succ (k : Nat) :
    wrapInt32 (wrapInt32 (k : Int) + 1) = wrapInt32 ((k + 1 : Nat) : Int) := by
  rw [wrapInt32_succ]
  rfl

theorem wrapInt32_of_lt (k : Nat) (h : k < 2 ^ 31) : wrapInt32 (k : Int) = (k : Int) := by
  unfold wrapInt32
  norm_num at h
  omega

theorem wrapInt32_injOn {a b : Nat} (ha : a < 2 ^ 32) (hb : b < 2 ^ 32)
    (e : wrapInt32 (a : Int) = wrapInt32 (b : Int)) : a = b := by
  unfold wrapInt32 at e
  norm_num at ha hb
  omega

/-! ## The symbol table -/

theorem mem_symbolTable (M : Module) (s : String) :
    s ∈ M.symbolTable ↔
      (∃ V ∈ M.functions, V.hasName = true ∧ V.name = s) ∨
      (∃ V ∈ M.globals, V.hasName = true ∧ V.name = s) := by
  simp [Module.symbolTable, and_assoc]

theorem makeUniqueName_form (vmap : List String) (Name : String) (fuel LastUnique : Nat) :
    ∃ N : Nat, (makeUniqueName vmap Name fuel LastUnique).1 = Name ++ "." ++ toString N := by
  induction fuel generalizing LastUnique with
  | zero => exact ⟨LastUnique + 1, rfl⟩
  | succ fuel ih =>
    unfold makeUniqueName
    by_cases hc : Name ++ "." ++ toString (LastUnique + 1) ∈ vmap
    · simpa only [hc, if_true] using ih (LastUnique + 1)
    · exact ⟨LastUnique + 1, by simp only [hc, if_false]⟩

theorem makeUniqueName_fresh_aux (vmap : List String) (Name : String) (fuel : Nat) :
    ∀ (LastUnique : Nat) (T : List String), T.length ≤ fuel →
      (∀ s ∈ vmap, ∀ N : Nat, LastUnique < N → s = Name ++ "." ++ toString N → s ∈ T) →
      (makeUniqueName vmap Name fuel LastUnique).1 ∉ vmap := by
  induction fuel with
  | zero =>
    intro L T hT hcov hmem
    have hnil : T = [] := List.length_eq_zero.1 (Nat.le_zero.1 hT)
    have := hcov _ hmem (L + 1) (Nat.lt_succ_self L) rfl
    rw [hnil] at this
    exact List.not_mem_nil _ this
  | succ fuel ih =>
    intro L T hT hcov
    unfold makeUniqueName
    by_cases hc : Name ++ "." ++ toString (L + 1) ∈ vmap
    · simp only [hc, if_true]
      have hinT : Name ++ "." ++ toString (L + 1) ∈ T := hcov _ hc (L + 1) (Nat.lt_succ_self L) rfl
      refine ih (L + 1) (T.erase (Name ++ "." ++ toString (L + 1))) ?_ ?_
      · rw [List.length_erase_of_mem hinT]
        have : 0 < T.length := List.length_pos_of_mem hinT
        omega
      · intro s hs N hN e
        have hsT : s ∈ T := hcov s hs N (by omega) e
        refine (List.mem_erase_of_ne ?_).2 hsT
        intro e2
        have := suffixed_injective Name (e.symm.trans e2)
        omega
    · simpa only [hc, if_false] using hc

/-- The loop of `makeUniqueName` ends on a name that is not in the table. -/
theorem makeUniqueName_fresh (vmap : List String) (Name : String) (LastUnique : Nat) :
    (makeUniqueName vmap Name vmap.length LastUnique).1 ∉ vmap :=
  makeUniqueName_fresh_aux vmap Name vmap.length LastUnique vmap (le_refl _)
    (fun _ hs _ _ _ => hs)

theorem createValueName_fresh (vmap : List String) (Name : String) (LastUnique : Nat) :
    (createValueName vmap Name LastUnique).1 ∉ vmap := by
  unfold createValueName
  by_cases h : Name ∈ vmap
  · simpa only [h, if_true] using makeUniqueName_fresh vmap Name LastUnique
  · simpa only [h, if_false] using h

theorem createValueName_form (vmap : List String) (Name : String) (LastUnique : Nat) :
    (createValueName vmap Name LastUnique).1 = Name ∨
      ∃ N : Nat, (createValueName vmap Name LastUnique).1 = Name ++ "." ++ toString N := by
  unfold createValueName
  by_cases h : Name ∈ vmap
  · simpa only [h, if_true] using Or.inr (makeUniqueName_form vmap Name vmap.length LastUnique)
  · simp only [h, if_false]; exact Or.inl trivial

theorem createValueName_of_not_mem (vmap : List String) (Name : String) (LastUnique : Nat)
    (h : Name ∉ vmap) : createValueName vmap Name LastUnique = (Name, LastUnique) := by
  simp [createValueName, h]

theorem createValueName_ne_empty (vmap : List String) (Name : String) (LastUnique : Nat)
    (h : Name ≠ "") : (createValueName vmap Name LastUnique).1 ≠ "" := by
  rcases createValueName_form vmap Name LastUnique with e | ⟨N, e⟩
  · rw [e]; exact h
  · rw [e]
    intro e2
    have := congrArg (fun s => s.data.length) e2
    simp at this

/-! ## The loop of `nameUnamedFunctions` -/

theorem renameLoop_cached (g : List GlobalValue) (h : String) (hne : h ≠ "")
    (todo done : List GlobalValue) (c : Int) (L : Nat) (ch : Bool) :
    renameLoop g done todo ⟨h⟩ c L ch
      = (ch || decide (0 < countUnnamed todo), ⟨done ++ renamed g h done todo c L, g⟩) := by
  induction todo generalizing done c L ch with
  | nil => simp [renameLoop, renamed, countUnnamed]
  | cons F rest ih =>
    by_cases hF : F.hasName
    · simp [renameLoop, renamed, hF, ih, countUnnamed_cons]
    · simp [renameLoop, renamed, hF, ih, countUnnamed_cons, get_cached h hne, anonName]

theorem renameLoop_create (g : List GlobalValue) (todo done : List GlobalValue)
    (c : Int) (L : Nat) (ch : Bool) :
    renameLoop g done todo ModuleHasher.create c L ch
      = (ch || decide (0 < countUnnamed todo),
          ⟨done ++ renamed g (fingerprint ⟨done ++ todo, g⟩) done todo c L, g⟩) := by
  induction todo generalizing done c L ch with
  | nil => simp [renameLoop, renamed, countUnnamed]
  | cons F rest ih =>
    by_cases hF : F.hasName
    · simp [renameLoop, renamed, hF, ih, countUnnamed_cons]
    · simp [renameLoop, renamed, hF, countUnnamed_cons, get_create,
        renameLoop_cached g _ (fingerprint_ne_empty _), anonName]

/-- The run in closed form: `Changed` says whether some function had no name, the
functions are renamed with the fingerprint of the module as it was, the globals stay. -/
theorem nameUnamedFunctions_eq (M : Module) :
    nameUnamedFunctions M
      = (decide (0 < countUnnamed M.functions),
          ⟨renamed M.globals (fingerprint M) [] M.functions 0 0, M.globals⟩) := by
  simp [nameUnamedFunctions, renameLoop_create]

/-! ## What a run does to each function -/

theorem setName_fst (M : Module) (L : Nat) (V : GlobalValue) (N : String) :
    (setName M L V N).1 = V.withName (createValueName M.symbolTable N L).1 := rfl

theorem hasName_setName (M : Module) (L : Nat) (V : GlobalValue) (h : String) (c : Int) :
    (setName M L V (anonName h c)).1.hasName = true := by
  have := createValueName_ne_empty M.symbolTable (anonName h c) L (anonName_ne_empty h c)
  simpa [setName_fst, GlobalValue.withName, GlobalValue.hasName] using this

theorem renames_setName (M : Module) (L : Nat) (F : GlobalValue) (h : String) (c : Int)
    (hF : F.hasName = false) : Renames F (setName M L F (anonName h c)).1 :=
  Or.inr ⟨hF, hasName_setName M L F h c, rfl⟩

theorem renamed_forall₂ (g : List GlobalValue) (h : String) (todo done : List GlobalValue)
    (c : Int) (L : Nat) : List.Forall₂ Renames todo (renamed g h done todo c L) := by
  induction todo generalizing done c L with
  | nil => simp [renamed]
  | cons F rest ih =>
    by_cases hF : F.hasName
    · simp only [renamed, hF, if_true]
      exact List.Forall₂.cons (Or.inl ⟨hF, rfl⟩) (ih _ _ _)
    · simp only [renamed, hF, Bool.false_eq_true, if_false]
      exact List.Forall₂.cons (renames_setName _ _ _ _ _ (by simpa using hF)) (ih _ _ _)

theorem Renames.hasName {F G : GlobalValue} (h : Renames F G) : G.hasName = true := by
  rcases h with ⟨hF, rfl⟩ | ⟨_, hG, _⟩
  · exact hF
  · exact hG

theorem Renames.attributes {F G : GlobalValue} (h : Renames F G) :
    G.isDeclaration = F.isDeclaration ∧ G.hasLocalLinkage = F.hasLocalLinkage := by
  rcases h with ⟨_, rfl⟩ | ⟨_, _, e⟩
  · exact ⟨rfl, rfl⟩
  · rw [e]; exact ⟨rfl, rfl⟩

theorem Renames.ne_of_unnamed {F G : GlobalValue} (h : Renames F G) (hF : F.hasName = false) :
    G ≠ F := by
  intro e
  have := h.hasName
  rw [e, hF] at this
  cases this

theorem forall₂_renames_getElem? {l l' : List GlobalValue} (h : List.Forall₂ Renames l l')
    (i : Nat) (F : GlobalValue) (hi : l[i]? = some F) :
    ∃ G, l'[i]? = some G ∧ Renames F G := by
  induction h generalizing i with
  | nil => simp at hi
  | @cons a b l l' hd _ ih =>
    cases i with
    | zero =>
      simp only [List.getElem?_cons_zero, Option.some.injEq] at hi
      subst hi
      exact ⟨b, by simp, hd⟩
    | succ i => simpa using ih i (by simpa using hi)

theorem forall₂_renames_all_named {l l' : List GlobalValue} (h : List.Forall₂ Renames l l') :
    ∀ G ∈ l', G.hasName = true := by
  induction h with
  | nil => simp
  | cons hd _ ih =>
    intro G hG
    rcases List.mem_cons.1 hG with rfl | hG
    · exact hd.hasName
    · exact ih G hG

theorem forall₂_renames_eq_self_iff {l l' : List GlobalValue}
    (h : List.Forall₂ Renames l l') : l' = l ↔ countUnnamed l = 0 := by
  induction h with
  | nil => simp [countUnnamed]
  | @cons F G l l' hd _ ih =>
    by_cases hF : F.hasName
    · have hG : G = F := by
        rcases hd with ⟨_, e⟩ | ⟨hf, _⟩
        · exact e
        · rw [hF] at hf; cases hf
      simp [countUnnamed_cons, hF, hG, ih]
    · have hne := hd.ne_of_unnamed (by simpa using hF)
      simp [countUnnamed_cons, hF, hne]

theorem renamed_length (g : List GlobalValue) (h : String) (todo done : List GlobalValue)
    (c : Int) (L : Nat) : (renamed g h done todo c L).length = todo.length :=
  (renamed_forall₂ g h todo done c L).length_eq.symm

/-! ## The names a run assigns -/

theorem symbolTable_snoc (done rest g : List GlobalValue) (F : GlobalValue) :
    (Module.mk ((done ++ [F]) ++ rest) g).symbolTable
      = (Module.mk (done ++ F :: rest) g).symbolTable := by
  simp

theorem mem_symbolTable_replace (done rest g : List GlobalValue) (F G : GlobalValue)
    (hF : F.hasName = false) (hG : G.hasName = true) (s : String) :
    s ∈ (Module.mk ((done ++ [G]) ++ rest) g).symbolTable ↔
      s = G.name ∨ s ∈ (Module.mk (done ++ F :: rest) g).symbolTable := by
  simp only [mem_symbolTable, List.mem_append, List.mem_cons, List.mem_singleton,
    List.not_mem_nil, or_false]
  constructor
  · rintro (⟨V, (hV | rfl) | hV, hn, rfl⟩ | ⟨V, hV, hn, rfl⟩)
    · exact Or.inr (Or.inl ⟨V, Or.inl hV, hn, rfl⟩)
    · exact Or.inl rfl
    · exact Or.inr (Or.inl ⟨V, Or.inr (Or.inr hV), hn, rfl⟩)
    · exact Or.inr (Or.inr ⟨V, hV, hn, rfl⟩)
  · rintro (rfl | ⟨V, hV | rfl | hV, hn, rfl⟩ | ⟨V, hV, hn, rfl⟩)
    · exact Or.inl ⟨G, Or.inl (Or.inr rfl), hG, rfl⟩
    · exact Or.inl ⟨V, Or.inl (Or.inl hV), hn, rfl⟩
    · rw [hF] at hn; cases hn
    · exact Or.inl ⟨V, Or.inr hV, hn, rfl⟩
    · exact Or.inr ⟨V, hV, hn, rfl⟩

theorem wrapInt32_zero : wrapInt32 ((0 : Nat) : Int) = 0 := by decide

/-- The function at a position that had no name keeps its attributes and gets a
non-empty name that was not in the symbol table when the loop reached it; the name is
the one the pass asks for, or that name followed by `.` and a number. -/
theorem renamed_name (g : List GlobalValue) (h : String) (todo : List GlobalValue) :
    ∀ (done : List GlobalValue) (k0 L q : Nat) (F : GlobalValue),
      todo[q]? = some F → F.hasName = false →
      ∃ n : String, (renamed g h done todo (wrapInt32 (k0 : Int)) L)[q]? = some (F.withName n) ∧
        n ≠ "" ∧ n ∉ (Module.mk (done ++ todo) g).symbolTable ∧
        (n = anonName h (wrapInt32 ((k0 + countUnnamed (todo.take q) : Nat) : Int)) ∨
          ∃ N : Nat, n = anonName h (wrapInt32 ((k0 + countUnnamed (todo.take q) : Nat) : Int))
            ++ "." ++ toString N) := by
  induction todo with
  | nil => intro done k0 L q F hq; simp at hq
  | cons F0 rest ih =>
    intro done k0 L q F hq hF
    by_cases hF0 : F0.hasName
    · cases q with
      | zero =>
        simp only [List.getElem?_cons_zero, Option.some.injEq] at hq
        subst hq
        rw [hF0] at hF; cases hF
      | succ q1 =>
        simp only [List.getElem?_cons_succ] at hq
        obtain ⟨n, h1, h2, h3, h4⟩ := ih (done ++ [F0]) k0 L q1 F hq hF
        refine ⟨n, ?_, h2, ?_, ?_⟩
        · simpa [renamed, hF0] using h1
        · rwa [symbolTable_snoc] at h3
        · simpa [countUnnamed_cons, hF0] using h4
    · have hF0' : F0.hasName = false := by simpa using hF0
      cases q with
      | zero =>
        simp only [List.getElem?_cons_zero, Option.some.injEq] at hq
        subst hq
        refine ⟨(createValueName (Module.mk (done ++ F0 :: rest) g).symbolTable
          (anonName h (wrapInt32 (k0 : Int))) L).1, ?_, ?_, ?_, ?_⟩
        · simp [renamed, hF0, setName_fst]
        · exact createValueName_ne_empty _ _ _ (anonName_ne_empty _ _)
        · exact createValueName_fresh _ _ _
        · simpa [countUnnamed] using createValueName_form
            (Module.mk (done ++ F0 :: rest) g).symbolTable (anonName h (wrapInt32 (k0 : Int))) L
      | succ q1 =>
        simp only [List.getElem?_cons_succ] at hq
        obtain ⟨n, h1, h2, h3, h4⟩ := ih
          (done ++ [(setName ⟨done ++ F0 :: rest, g⟩ L F0 (anonName h (wrapInt32 (k0 : Int)))).1])
          (k0 + 1) (setName ⟨done ++ F0 :: rest, g⟩ L F0 (anonName h (wrapInt32 (k0 : Int)))).2
          q1 F hq hF
        refine ⟨n, ?_, h2, ?_, ?_⟩
        · simpa [renamed, hF0, wrapInt32_natCast_succ] using h1
        · intro hmem
          exact h3 ((mem_symbolTable_replace done rest g F0 _ hF0' (hasName_setName _ _ _ _ _)
            n).2 (Or.inr hmem))
        · have e : k0 + 1 + countUnnamed (List.take q1 rest)
              = k0 + countUnnamed (List.take (q1 + 1) (F0 :: rest)) := by
            simp [countUnnamed_cons, hF0]; omega
          rw [e] at h4
          exact h4

/-- The name a run gives to a function that had none is carried by no other function
of the resulting list. -/
theorem renamed_unique (g : List GlobalValue) (h : String) (todo : List GlobalValue) :
    ∀ (done : List GlobalValue) (k0 L q p : Nat) (F G G' : GlobalValue),
      todo[q]? = some F → F.hasName = false → p ≠ q →
      (renamed g h done todo (wrapInt32 (k0 : Int)) L)[q]? = some G →
      (renamed g h done todo (wrapInt32 (k0 : Int)) L)[p]? = some G' →
      G'.name ≠ G.name := by
  induction todo with
  | nil => intro done k0 L q p F G G' hq; simp at hq
  | cons F0 rest ih =>
    intro done k0 L q p F G G' hq hF hpq hG hG'
    -- the head of the result and the rest of the loop
    obtain ⟨H0, done', k1, L1, hout, hnamed, hmem, hdone', hren, hfresh⟩ :
        ∃ (H0 : GlobalValue) (done' : List GlobalValue) (k1 L1 : Nat),
          renamed g h done (F0 :: rest) (wrapInt32 (k0 : Int)) L
            = H0 :: renamed g h done' rest (wrapInt32 (k1 : Int)) L1 ∧
          H0.hasName = true ∧
          (∀ s, s ∈ (Module.mk (done' ++ rest) g).symbolTable ↔
            s = H0.name ∨ s ∈ (Module.mk (done ++ F0 :: rest) g).symbolTable) ∧
          done' = done ++ [H0] ∧ Renames F0 H0 ∧
          (F0.hasName = false → H0.name ∉ (Module.mk (done ++ F0 :: rest) g).symbolTable) := by
      by_cases hF0 : F0.hasName
      · refine ⟨F0, done ++ [F0], k0, L, by simp [renamed, hF0], hF0, ?_, rfl,
          Or.inl ⟨hF0, rfl⟩, fun hf => by rw [hF0] at hf; cases hf⟩
        intro s
        rw [symbolTable_snoc]
        constructor
        · exact Or.inr
        · rintro (rfl | hs)
          · exact (mem_symbolTable _ _).2 (Or.inl ⟨F0, by simp, hF0, rfl⟩)
          · exact hs
      · have hF0' : F0.hasName = false := by simpa using hF0
        refine ⟨(setName ⟨done ++ F0 :: rest, g⟩ L F0 (anonName h (wrapInt32 (k0 : Int)))).1, _,
          k0 + 1, (setName ⟨done ++ F0 :: rest, g⟩ L F0 (anonName h (wrapInt32 (k0 : Int)))).2,
          by simp [renamed, hF0, wrapInt32_natCast_succ], hasName_setName _ _ _ _ _,
          fun s => mem_symbolTable_replace done rest g F0 _ hF0' (hasName_setName _ _ _ _ _) s,
          rfl, renames_setName _ _ _ _ _ hF0', fun _ => createValueName_fresh _ _ _⟩
    rw [hout] at hG hG'
    have hall := renamed_forall₂ g h rest done' (wrapInt32 (k1 : Int)) L1
    cases q with
    | zero =>
      simp only [List.getElem?_cons_zero, Option.some.injEq] at hq hG
      subst hq hG
      cases p with
      | zero => exact absurd rfl hpq
      | succ p1 =>
        simp only [List.getElem?_cons_succ] at hG'
        -- the original function at that position
        have hlen := renamed_length g h rest done' (wrapInt32 (k1 : Int)) L1
        have hp1 : p1 < rest.length := by
          rw [← hlen]
          exact (List.getElem?_eq_some_iff.1 hG').1
        obtain ⟨G1, hG1, hR⟩ := forall₂_renames_getElem? hall p1 rest[p1]
          (List.getElem?_eq_getElem hp1)
        rw [hG1, Option.some.injEq] at hG'
        subst hG'
        by_cases hF1 : rest[p1].hasName
        · have e : G1 = rest[p1] := by
            rcases hR with ⟨_, e⟩ | ⟨hf, _⟩
            · exact e
            · rw [hF1] at hf; cases hf
          intro hname
          apply hfresh hF
          rw [← hname, e]
          exact (mem_symbolTable _ _).2 (Or.inl ⟨rest[p1],
            by simp [List.getElem_mem], hF1, rfl⟩)
        · obtain ⟨n, h1, _, h3, _⟩ := renamed_name g h rest done' k1 L1 p1 rest[p1]
            (List.getElem?_eq_getElem hp1) (by simpa using hF1)
          rw [hG1, Option.some.injEq] at h1
          intro hname
          apply h3
          have : n = G1.name := by rw [h1]; rfl
          rw [this, hname]
          exact (hmem _).2 (Or.inl rfl)
    | succ q1 =>
      simp only [List.getElem?_cons_succ] at hq hG
      cases p with
      | zero =>
        simp only [List.getElem?_cons_zero, Option.some.injEq] at hG'
        subst hG'
        obtain ⟨n, h1, _, h3, _⟩ := renamed_name g h rest done' k1 L1 q1 F hq hF
        rw [hG, Option.some.injEq] at h1
        intro hname
        apply h3
        have : n = G.name := by rw [h1]; rfl
        rw [this, ← hname]
        exact (hmem _).2 (Or.inl rfl)
      | succ p1 =>
        simp only [List.getElem?_cons_succ] at hG'
        exact ih done' k1 L1 q1 p1 F G G' hq hF (by omega) hG hG'

/-- A name the pass asks for that is in the symbol table neither at the start nor
through an earlier renaming of the run is granted as it is. -/
theorem renamed_exact (g : List GlobalValue) (h : String) (T0 : List String)
    (todo : List GlobalValue) :
    ∀ (done : List GlobalValue) (k0 L : Nat),
      (∀ s ∈ (Module.mk (done ++ todo) g).symbolTable, s ∈ T0 ∨
        ∃ j : Nat, j < k0 ∧ (s = anonName h (wrapInt32 (j : Int)) ∨
          ∃ N : Nat, s = anonName h (wrapInt32 (j : Int)) ++ "." ++ toString N)) →
      ∀ (q : Nat) (F : GlobalValue), todo[q]? = some F → F.hasName = false →
        k0 + countUnnamed (todo.take q) < 2 ^ 32 →
        anonName h (wrapInt32 ((k0 + countUnnamed (todo.take q) : Nat) : Int)) ∉ T0 →
        (renamed g h done todo (wrapInt32 (k0 : Int)) L)[q]?
          = some (F.withName
              (anonName h (wrapInt32 ((k0 + countUnnamed (todo.take q) : Nat) : Int)))) := by
  induction todo with
  | nil => intro done k0 L _ q F hq; simp at hq
  | cons F0 rest ih =>
    intro done k0 L hInv q F hq hF hlt hT0
    by_cases hF0 : F0.hasName
    · cases q with
      | zero =>
        simp only [List.getElem?_cons_zero, Option.some.injEq] at hq
        subst hq
        rw [hF0] at hF; cases hF
      | succ q1 =>
        simp only [List.getElem?_cons_succ] at hq
        have e : k0 + countUnnamed (List.take (q1 + 1) (F0 :: rest))
            = k0 + countUnnamed (List.take q1 rest) := by
          simp [countUnnamed_cons, hF0]
        rw [e] at hlt hT0 ⊢
        have := ih (done ++ [F0]) k0 L (by rwa [symbolTable_snoc]) q1 F hq hF hlt hT0
        simpa [renamed, hF0] using this
    · have hF0' : F0.hasName = false := by simpa using hF0
      cases q with
      | zero =>
        simp only [List.getElem?_cons_zero, Option.some.injEq] at hq
        subst hq
        have hk : k0 + countUnnamed (List.take 0 (F0 :: rest)) = k0 := by simp [countUnnamed]
        rw [hk] at hlt hT0 ⊢
        have hnot : anonName h (wrapInt32 (k0 : Int))
            ∉ (Module.mk (done ++ F0 :: rest) g).symbolTable := by
          intro hmem
          rcases hInv _ hmem with h0 | ⟨j, hj, hj2 | ⟨N, hj2⟩⟩
          · exact hT0 h0
          · have := wrapInt32_injOn (by omega) hlt (anonName_injective h hj2).symm
            omega
          · exact anonName_ne_suffixed h _ _ N hj2
        simp [renamed, hF0, setName_fst, createValueName_of_not_mem _ _ _ hnot]
      | succ q1 =>
        simp only [List.getElem?_cons_succ] at hq
        have e : k0 + countUnnamed (List.take (q1 + 1) (F0 :: rest))
            = k0 + 1 + countUnnamed (List.take q1 rest) := by
          simp [countUnnamed_cons, hF0]; omega
        rw [e] at hlt hT0 ⊢
        have hInv' : ∀ s ∈ (Module.mk
            ((done ++ [(setName ⟨done ++ F0 :: rest, g⟩ L F0
              (anonName h (wrapInt32 (k0 : Int)))).1]) ++ rest) g).symbolTable, s ∈ T0 ∨
            ∃ j : Nat, j < k0 + 1 ∧ (s = anonName h (wrapInt32 (j : Int)) ∨
              ∃ N : Nat, s = anonName h (wrapInt32 (j : Int)) ++ "." ++ toString N) := by
          intro s hs
          rcases (mem_symbolTable_replace done rest g F0 _ hF0' (hasName_setName _ _ _ _ _)
            s).1 hs with rfl | hs
          · refine Or.inr ⟨k0, Nat.lt_succ_self _, ?_⟩
            exact createValueName_form _ _ _
          · rcases hInv s hs with h0 | ⟨j, hj, hj2⟩
            · exact Or.inl h0
            · exact Or.inr ⟨j, by omega, hj2⟩
        have := ih _ (k0 + 1) (setName ⟨done ++ F0 :: rest, g⟩ L F0
          (anonName h (wrapInt32 (k0 : Int)))).2 hInv' q1 F hq hF hlt hT0
        simpa [renamed, hF0, wrapInt32_natCast_succ] using this

/-! ## The run as a whole -/

theorem anonName_natCast (h : String) (k : Nat) (hk : k < 2 ^ 31) :
    anonName h (wrapInt32 (k : Int)) = "anon." ++ h ++ "." ++ toString k := by
  rw [wrapInt32_of_lt k hk]
  rfl

/-- The function at a position that had no name, after a run: it keeps its attributes;
its name is not in the symbol table of the module before the run; it is the name the
pass asks for, or that name followed by `.` and a number. -/
theorem run_name (M : Module) (i : Nat) (F : GlobalValue)
    (hi : M.functions[i]? = some F) (hF : F.hasName = false) :
    ∃ n : String, (nameUnamedFunctions M).2.functions[i]? = some (F.withName n) ∧
      n ≠ "" ∧ n ∉ M.symbolTable ∧
      (n = anonName (fingerprint M) (wrapInt32 (countUnnamed (M.functions.take i) : Int)) ∨
        ∃ N : Nat, n = anonName (fingerprint M)
          (wrapInt32 (countUnnamed (M.functions.take i) : Int)) ++ "." ++ toString N) := by
  rw [nameUnamedFunctions_eq]
  have := renamed_name M.globals (fingerprint M) M.functions [] 0 0 i F hi hF
  simpa [wrapInt32_zero] using this

/-- A name the pass asks for that no function or global value of the module carries
before the run is granted as it is (the counter being one of the first `2^32`). -/
theorem run_exact (M : Module) (i : Nat) (F : GlobalValue)
    (hi : M.functions[i]? = some F) (hF : F.hasName = false)
    (hk : countUnnamed (M.functions.take i) < 2 ^ 32)
    (hfree : anonName (fingerprint M) (wrapInt32 (countUnnamed (M.functions.take i) : Int))
      ∉ M.symbolTable) :
    (nameUnamedFunctions M).2.functions[i]? = some (F.withName
      (anonName (fingerprint M) (wrapInt32 (countUnnamed (M.functions.take i) : Int)))) := by
  rw [nameUnamedFunctions_eq]
  have := renamed_exact M.globals (fingerprint M) M.symbolTable M.functions [] 0 0
    (fun s hs => Or.inl (by simpa using hs)) i F hi hF (by simpa using hk)
    (by simpa using hfree)
  simpa [wrapInt32_zero] using this

/-- The name a run gives to a function that had none is carried by no other function
of the module the run leaves. -/
theorem run_unique (M : Module) (i j : Nat) (F G G' : GlobalValue) (hij : i ≠ j)
    (hi : M.functions[i]? = some F) (hF : F.hasName = false)
    (hG : (nameUnamedFunctions M).2.functions[i]? = some G)
    (hG' : (nameUnamedFunctions M).2.functions[j]? = some G') :
    G.name ≠ G'.name := by
  rw [nameUnamedFunctions_eq] at hG hG'
  have := renamed_unique M.globals (fingerprint M) M.functions [] 0 0 i j F G G' hi hF
    (Ne.symm hij) (by simpa [wrapInt32_zero] using hG) (by simpa [wrapInt32_zero] using hG')
  exact Ne.symm this

/-! ## The shape of the names -/

/-- In a name of the shape `anon.<32 characters>.<decimal>` the decimal starts at
character 38. -/
theorem shape_drop (s h : String) (k : Nat) (e : s = "anon." ++ h ++ "." ++ toString k)
    (hlen : h.length = 32) : s.data.drop 38 = (toString k).data := by
  have hl : ("anon.".data ++ h.data ++ ".".data).length = 38 := by
    have : h.data.length = 32 := hlen
    simp [this]
  rw [e]
  simp only [String.data_append]
  exact List.drop_left' hl

/-! ## The counter -/

theorem nameBytes_pos (s : String) (h : s ≠ "") : 0 < (nameBytes s).length := by
  have hd : s.data ≠ [] := fun e => h (String.ext e)
  obtain ⟨c, cs, e⟩ := List.exists_cons_of_ne_nil hd
  have := Char.utf8Size_pos c
  simp [nameBytes, e]
  omega

theorem Renames.qualifies_of_unnamed {F G : GlobalValue} (h : Renames F G)
    (hF : F.hasName = false) : qualifies G = feedsBack F := by
  have hG := h.hasName
  obtain ⟨hd, hl⟩ := h.attributes
  simp [qualifies, feedsBack, hG, hF, hd, hl]

theorem Renames.eq_of_named {F G : GlobalValue} (h : Renames F G) (hF : F.hasName = true) :
    G = F := by
  rcases h with ⟨_, e⟩ | ⟨hf, _⟩
  · exact e
  · rw [hF] at hf; cases hf

/-- When no function without a name is defined and not local, renaming leaves the
qualifying names as they were. -/
theorem qualifyingNames_renamed_eq {l l' : List GlobalValue} (h : List.Forall₂ Renames l l')
    (hno : ∀ F ∈ l, feedsBack F = false) :
    qualifyingNames l' = qualifyingNames l := by
  induction h with
  | nil => rfl
  | @cons F G l l' hd _ ih =>
    have hrest : ∀ V ∈ l, feedsBack V = false := fun V hV => hno V (List.mem_cons_of_mem _ hV)
    by_cases hF : F.hasName
    · rw [hd.eq_of_named hF, qualifyingNames_cons, qualifyingNames_cons, ih hrest]
    · have hF' : F.hasName = false := by simpa using hF
      have hq := hd.qualifies_of_unnamed hF'
      rw [hno F (List.mem_cons_self _ _)] at hq
      simp [qualifyingNames_cons, ih hrest, hq, qualifies_of_hasName_false hF']

/-- Renaming never shortens the bytes of the qualifying names, and lengthens them as
soon as one function without a name is defined and not local. -/
theorem qualifyingNames_renamed_length {l l' : List GlobalValue}
    (h : List.Forall₂ Renames l l') :
    ((qualifyingNames l).flatMap nameBytes).length
        ≤ ((qualifyingNames l').flatMap nameBytes).length ∧
    ((∃ F ∈ l, feedsBack F = true) →
      ((qualifyingNames l).flatMap nameBytes).length
        < ((qualifyingNames l').flatMap nameBytes).length) := by
  induction h with
  | nil => simp
  | @cons F G l l' hd _ ih =>
    obtain ⟨hle, hlt⟩ := ih
    by_cases hF : F.hasName
    · have hfb : feedsBack F = false := by simp [feedsBack, hF]
      have hlt' : (∃ V ∈ F :: l, feedsBack V = true) →
          ((qualifyingNames l).flatMap nameBytes).length
            < ((qualifyingNames l').flatMap nameBytes).length := by
        rintro ⟨V, hV, hVb⟩
        rcases List.mem_cons.1 hV with rfl | hV
        · rw [hfb] at hVb; cases hVb
        · exact hlt ⟨V, hV, hVb⟩
      rw [hd.eq_of_named hF]
      by_cases hq : qualifies F
      · simp only [qualifyingNames_cons, hq, if_true, List.flatMap_cons, List.length_append]
        exact ⟨by omega, fun hex => by have := hlt' hex; omega⟩
      · simp only [qualifyingNames_cons, hq, Bool.false_eq_true, if_false]
        exact ⟨hle, hlt'⟩
    · have hF' : F.hasName = false := by simpa using hF
      have hq := hd.qualifies_of_unnamed hF'
      have hpos := nameBytes_pos G.name (by simpa [GlobalValue.hasName] using hd.hasName)
      simp only [qualifyingNames_cons, qualifies_of_hasName_false hF', hq,
        Bool.false_eq_true, if_false]
      by_cases hfb : feedsBack F
      · simp only [hfb, if_true, List.flatMap_cons, List.length_append]
        exact ⟨by omega, fun _ => by omega⟩
      · simp only [hfb, Bool.false_eq_true, if_false]
        refine ⟨hle, ?_⟩
        rintro ⟨V, hV, hVb⟩
        rcases List.mem_cons.1 hV with rfl | hV
        · exact absurd hVb hfb
        · exact hlt ⟨V, hV, hVb⟩

/-! ## The cache of `ModuleHasher` -/

theorem gets_cached (h : String) (hne : h ≠ "") (Ms : List Module) :
    (ModuleHasher.mk h).gets Ms = List.replicate Ms.length h := by
  induction Ms with
  | nil => rfl
  | cons M Ms ih => simp [ModuleHasher.gets, get_cached h hne, ih, List.replicate_succ]

/-! ## The hashed surface -/

theorem qualifyingNames_set (l : List GlobalValue) (i : Nat) (V : GlobalValue) (n : String)
    (hi : l[i]? = some V) (hV : V.isDeclaration = true ∨ V.hasLocalLinkage = true) :
    qualifyingNames (l.set i (V.withName n)) = qualifyingNames l := by
  induction l generalizing i with
  | nil => simp
  | cons W rest ih =>
    cases i with
    | zero =>
      simp only [List.getElem?_cons_zero, Option.some.injEq] at hi
      subst hi
      rcases hV with hV | hV <;>
        simp [qualifyingNames, qualifies, GlobalValue.withName, List.filter_cons, hV]
    | succ i =>
      simp only [List.getElem?_cons_succ] at hi
      have := ih i hi
      simp only [qualifyingNames, List.set_cons_succ, List.filter_cons] at this ⊢
      by_cases hW : qualifies W <;> simp [hW, this]

/-! ## The claims -/

/-- C1, the input that refutes it: in `takenNameModule` function 0 has local linkage and
is already called `anon.d41d8cd98f00b204e9800998ecf8427e.0`, function 1 is the first
function without a name and the fingerprint is `d41d8cd98f00b204e9800998ecf8427e`; the
symbol table does not give the taken name twice, and function 1 ends as
`anon.d41d8cd98f00b204e9800998ecf8427e.0.1`, not as `"anon." ++ fp ++ "." ++ decimal 0`. -/
theorem C1_counterexample_name_taken :
    (ModuleHasher.create.get takenNameModule).1 = "d41d8cd98f00b204e9800998ecf8427e" ∧
    takenNameModule.functions.map GlobalValue.hasName = [true, false] ∧
    (nameUnamedFunctions takenNameModule).2.functions.map GlobalValue.name
      = ["anon.d41d8cd98f00b204e9800998ecf8427e.0",
         "anon.d41d8cd98f00b204e9800998ecf8427e.0.1"] ∧
    "anon.d41d8cd98f00b204e9800998ecf8427e.0.1"
      ≠ "anon." ++ (ModuleHasher.create.get takenNameModule).1 ++ "." ++ toString 0 := by
  decide

/-- C1, amended: a run of `nameUnamedFunctions` keeps the number and the order of the
functions and leaves every function that had a name as it is.  A function without a
name that has `k < 2^31` functions without a name before it keeps its attributes and
gets exactly the name `"anon." ++ fp ++ "." ++ decimal k` (`fp` the fingerprint of the
module before the run) when no function or global value of the module carries that
name before the run, and that name followed by `.` and a decimal number when one
does. -/
theorem C1_names_unless_taken (M : Module) :
    (nameUnamedFunctions M).2.functions.length = M.functions.length ∧
    ∀ (i : Nat) (F : GlobalValue), M.functions[i]? = some F →
      (F.hasName = true → (nameUnamedFunctions M).2.functions[i]? = some F) ∧
      (F.hasName = false → countUnnamed (M.functions.take i) < 2 ^ 31 →
        ∃ G, (nameUnamedFunctions M).2.functions[i]? = some G ∧ G = F.withName G.name ∧
          ("anon." ++ (ModuleHasher.create.get M).1 ++ "."
              ++ toString (countUnnamed (M.functions.take i)) ∉ M.symbolTable →
            G.name = "anon." ++ (ModuleHasher.create.get M).1 ++ "."
              ++ toString (countUnnamed (M.functions.take i))) ∧
          ("anon." ++ (ModuleHasher.create.get M).1 ++ "."
              ++ toString (countUnnamed (M.functions.take i)) ∈ M.symbolTable →
            ∃ N : Nat, G.name = "anon." ++ (ModuleHasher.create.get M).1 ++ "."
              ++ toString (countUnnamed (M.functions.take i)) ++ "." ++ toString N)) := by
  refine ⟨?_, fun i F hi => ⟨fun hF => ?_, fun hF hk => ?_⟩⟩
  · rw [nameUnamedFunctions_eq]; exact renamed_length _ _ _ _ _ _
  · rw [nameUnamedFunctions_eq]
    obtain ⟨G, hG, hR⟩ := forall₂_renames_getElem? (renamed_forall₂ M.globals (fingerprint M)
      M.functions [] 0 0) i F hi
    rcases hR with ⟨_, e⟩ | ⟨hf, _⟩
    · rw [← e]; exact hG
    · rw [hF] at hf; cases hf
  · obtain ⟨n, hn, _, hfresh, hform⟩ := run_name M i F hi hF
    rw [anonName_natCast _ _ hk] at hform
    refine ⟨F.withName n, hn, rfl, fun hfree => ?_, fun htaken => ?_⟩
    · have := run_exact M i F hi hF (lt_trans hk (by norm_num))
        (by rw [anonName_natCast _ _ hk]; exact hfree)
      rw [hn, anonName_natCast _ _ hk] at this
      exact congrArg GlobalValue.name (Option.some.inj this)
    · rcases hform with e | ⟨N, e⟩
      · exact absurd (e ▸ htaken) hfresh
      · exact ⟨N, e⟩

/-- C1, amended, at the scenario of section 8: function 3 has one function without a
name before it, the name `anon.c674bd9db27f385695e713d85b4f7188.1` is free, and the
function gets it. -/
theorem C1_witness_scenario :
    scenario.functions[3]? = some ⟨"", false, false⟩ ∧
    countUnnamed (scenario.functions.take 3) = 1 ∧
    (ModuleHasher.create.get scenario).1 = "c674bd9db27f385695e713d85b4f7188" ∧
    ∃ G, (nameUnamedFunctions scenario).2.functions[3]? = some G ∧
      G = (GlobalValue.mk "" false false).withName G.name ∧
      ("anon." ++ (ModuleHasher.create.get scenario).1 ++ "."
          ++ toString (countUnnamed (scenario.functions.take 3)) ∉ scenario.symbolTable →
        G.name = "anon." ++ (ModuleHasher.create.get scenario).1 ++ "."
          ++ toString (countUnnamed (scenario.functions.take 3))) ∧
      ("anon." ++ (ModuleHasher.create.get scenario).1 ++ "."
          ++ toString (countUnnamed (scenario.functions.take 3)) ∈ scenario.symbolTable →
        ∃ N : Nat, G.name = "anon." ++ (ModuleHasher.create.get scenario).1 ++ "."
          ++ toString (countUnnamed (scenario.functions.take 3)) ++ "." ++ toString N) :=
  ⟨by decide, by decide, by decide,
    ((C1_names_unless_taken scenario).2 3 ⟨"", false, false⟩ (by decide)).2 (by decide)
      (by decide)⟩

/-- C1 on the scenario of section 8: the names `[A, "", B, "", ""]` become
`[A, anon.<fp>.0, B, anon.<fp>.1, anon.<fp>.2]`. -/
theorem C1_scenario_names :
    (nameUnamedFunctions scenario).2.functions.map GlobalValue.name
      = ["A", "anon." ++ fingerprint scenario ++ ".0", "B",
         "anon." ++ fingerprint scenario ++ ".1", "anon." ++ fingerprint scenario ++ ".2"] := by
  decide

/-- C2: the first `get` of a fresh `ModuleHasher` returns the hexadecimal rendering of
the MD5 digest of the bytes of the names of the functions that are not declarations,
have no local linkage and have a name, in module order, followed by the bytes of the
names of the global values that satisfy the same three conditions. -/
theorem C2_get_is_md5_of_qualifying_names (M : Module) :
    (ModuleHasher.create.get M).1 = MD5.stringifyResult (MD5.digest
      ((((M.functions.filter fun F =>
            !F.isDeclaration && !F.hasLocalLinkage && F.hasName).map GlobalValue.name)
        ++ ((M.globals.filter fun G =>
            !G.isDeclaration && !G.hasLocalLinkage && G.hasName).map GlobalValue.name)).flatMap
          nameBytes)) :=
  fingerprint_hashedBytes M

/-- C2 on the scenario of section 8: defined external functions `A`, `B`, three
functions without a name and one global `G` give the hexadecimal MD5 of `ABG`. -/
theorem C2_scenario_fingerprint :
    (ModuleHasher.create.get scenario).1 = md5hex "ABG" ∧
    md5hex "ABG" = "c674bd9db27f385695e713d85b4f7188" := by
  decide

/-- C3: after one run of `nameUnamedFunctions` the name given to a function that had no
name is carried by no other function of the resulting module, whether that one was
named before the run or renamed by it. -/
theorem C3_names_unique (M : Module) (i j : Nat) (F G G' : GlobalValue) (hij : i ≠ j)
    (hi : M.functions[i]? = some F) (hF : F.hasName = false)
    (hG : (nameUnamedFunctions M).2.functions[i]? = some G)
    (hG' : (nameUnamedFunctions M).2.functions[j]? = some G') :
    G.name ≠ G'.name :=
  run_unique M i j F G G' hij hi hF hG hG'

/-- C3 at `takenNameModule`, where the name the pass asks for is already carried by
function 0: function 1 had no name, and its new name differs from that of function 0. -/
theorem C3_witness_taken_name :
    (nameUnamedFunctions takenNameModule).2.functions[1]?
      = some ⟨"anon.d41d8cd98f00b204e9800998ecf8427e.0.1", false, false⟩ ∧
    (nameUnamedFunctions takenNameModule).2.functions[0]?
      = some ⟨"anon.d41d8cd98f00b204e9800998ecf8427e.0", false, true⟩ ∧
    "anon.d41d8cd98f00b204e9800998ecf8427e.0.1" ≠ "anon.d41d8cd98f00b204e9800998ecf8427e.0" :=
  ⟨by decide, by decide,
    C3_names_unique takenNameModule 1 0 ⟨"", false, false⟩
      ⟨"anon.d41d8cd98f00b204e9800998ecf8427e.0.1", false, false⟩
      ⟨"anon.d41d8cd98f00b204e9800998ecf8427e.0", false, true⟩ (by decide) (by decide)
      (by decide) (by decide) (by decide)⟩

/-- C4: the boolean `nameUnamedFunctions` returns (and `runOnModule` passes on) is true
exactly when some function of the module had no name before the run, and exactly
when the resulting module differs from the module before the run. -/
theorem C4_changed_iff (M : Module) :
    ((nameUnamedFunctions M).1 = true ↔ ∃ F ∈ M.functions, F.hasName = false) ∧
    ((nameUnamedFunctions M).1 = true ↔ (nameUnamedFunctions M).2 ≠ M) ∧
    (runOnModule M).1 = (nameUnamedFunctions M).1 := by
  refine ⟨?_, ?_, rfl⟩
  · simp [nameUnamedFunctions_eq, countUnnamed_pos_iff]
  · rw [nameUnamedFunctions_eq]
    have key : (Module.mk (renamed M.globals (fingerprint M) [] M.functions 0 0) M.globals = M)
        ↔ countUnnamed M.functions = 0 := by
      rw [← forall₂_renames_eq_self_iff (renamed_forall₂ M.globals (fingerprint M) M.functions [] 0 0)]
      cases M
      simp
    simp only [decide_eq_true_eq, ne_eq, key]
    omega

/-- C5: on a module in which every function already has a name, `nameUnamedFunctions`
returns `Changed = false` and leaves the module as it was. -/
theorem C5_all_named_is_noop (M : Module) (hall : ∀ F ∈ M.functions, F.hasName = true) :
    nameUnamedFunctions M = (false, M) := by
  have h0 : countUnnamed M.functions = 0 := (countUnnamed_eq_zero_iff _).2 hall
  rw [nameUnamedFunctions_eq,
    (forall₂_renames_eq_self_iff (renamed_forall₂ _ _ M.functions [] 0 0)).2 h0, h0]
  rfl

/-- C5 at a module with three named functions (one local, one a declaration) and two
globals, one of them without a name. -/
theorem C5_witness :
    (∀ F ∈ allNamedModule.functions, F.hasName = true) ∧
    nameUnamedFunctions allNamedModule = (false, allNamedModule) :=
  ⟨by decide, C5_all_named_is_noop allNamedModule (by decide)⟩

/-- C6: on a module with at least one function without a name, the first run returns
`Changed = true`; after it no function is without a name, and a second run returns
`Changed = false` and leaves the module exactly as the first run left it. -/
theorem C6_second_run_is_noop (M : Module) (hsome : ∃ F ∈ M.functions, F.hasName = false) :
    (nameUnamedFunctions M).1 = true ∧
    (∀ F ∈ (nameUnamedFunctions M).2.functions, F.hasName = true) ∧
    nameUnamedFunctions (nameUnamedFunctions M).2 = (false, (nameUnamedFunctions M).2) := by
  have hnamed : ∀ F ∈ (nameUnamedFunctions M).2.functions, F.hasName = true := by
    rw [nameUnamedFunctions_eq]
    exact forall₂_renames_all_named (renamed_forall₂ _ _ _ _ _ _)
  refine ⟨?_, hnamed, ?_⟩
  · simpa [nameUnamedFunctions_eq, countUnnamed_pos_iff] using hsome
  · have h0 := (countUnnamed_eq_zero_iff _).2 hnamed
    rw [nameUnamedFunctions_eq (nameUnamedFunctions M).2,
      (forall₂_renames_eq_self_iff (renamed_forall₂ _ _ _ [] 0 0)).2 h0, h0]
    rfl

/-- C6 at the scenario of section 8. -/
theorem C6_witness :
    (∃ F ∈ scenario.functions, F.hasName = false) ∧
    (nameUnamedFunctions scenario).1 = true ∧
    nameUnamedFunctions (nameUnamedFunctions scenario).2
      = (false, (nameUnamedFunctions scenario).2) :=
  have h := C6_second_run_is_noop scenario (by decide)
  ⟨by decide, h.1, h.2.2⟩

/-- C7: once the first `get` of a hasher, made while the module is `M`, has returned
`h`, every later `get` on the same hasher returns `h`, whatever states `Ms` the module
is in at those calls. -/
theorem C7_later_gets_return_first (M : Module) (Ms : List Module) :
    (ModuleHasher.create.get M).2.gets Ms
      = List.replicate Ms.length (ModuleHasher.create.get M).1 := by
  rw [get_create]
  exact gets_cached _ (fingerprint_ne_empty M) Ms

/-- C7 on a state whose fresh fingerprint differs: the hasher that served the scenario
of section 8 is asked again after the pass has renamed the module; a fresh hasher
would return another digest, this one returns the first. -/
theorem C7_stale_after_renaming :
    (ModuleHasher.create.get (nameUnamedFunctions scenario).2).1
      ≠ (ModuleHasher.create.get scenario).1 ∧
    ((ModuleHasher.create.get scenario).2.get (nameUnamedFunctions scenario).2).1
      = (ModuleHasher.create.get scenario).1 := by
  refine ⟨by decide, ?_⟩
  have h := C7_later_gets_return_first scenario [(nameUnamedFunctions scenario).2]
  simpa [ModuleHasher.gets] using h

/-- C8: two modules whose sequences of names of defined, non-local, named functions are
equal and whose sequences of names of defined, non-local, named global values are
equal get the same digest from freshly constructed hashers; in particular giving any
name (or none) to a function or global value that is a declaration or has local
linkage does not change the digest. -/
theorem C8_fingerprint_depends_on_surface_only :
    (∀ M N : Module,
      (M.functions.filter fun F =>
          !F.isDeclaration && !F.hasLocalLinkage && F.hasName).map GlobalValue.name
        = (N.functions.filter fun F =>
          !F.isDeclaration && !F.hasLocalLinkage && F.hasName).map GlobalValue.name →
      (M.globals.filter fun G =>
          !G.isDeclaration && !G.hasLocalLinkage && G.hasName).map GlobalValue.name
        = (N.globals.filter fun G =>
          !G.isDeclaration && !G.hasLocalLinkage && G.hasName).map GlobalValue.name →
      (ModuleHasher.create.get M).1 = (ModuleHasher.create.get N).1) ∧
    (∀ (M : Module) (i : Nat) (F : GlobalValue) (n : String),
      M.functions[i]? = some F → (F.isDeclaration = true ∨ F.hasLocalLinkage = true) →
      (ModuleHasher.create.get ⟨M.functions.set i (F.withName n), M.globals⟩).1
        = (ModuleHasher.create.get M).1) ∧
    (∀ (M : Module) (i : Nat) (G : GlobalValue) (n : String),
      M.globals[i]? = some G → (G.isDeclaration = true ∨ G.hasLocalLinkage = true) →
      (ModuleHasher.create.get ⟨M.functions, M.globals.set i (G.withName n)⟩).1
        = (ModuleHasher.create.get M).1) := by
  have key : ∀ M N : Module, qualifyingNames M.functions = qualifyingNames N.functions →
      qualifyingNames M.globals = qualifyingNames N.globals →
      fingerprint M = fingerprint N := by
    intro M N hf hg
    rw [fingerprint_hashedBytes, fingerprint_hashedBytes, hashedBytes, hashedBytes, hf, hg]
  refine ⟨fun M N hf hg => key M N hf hg, fun M i F n hi hF => ?_, fun M i G n hi hG => ?_⟩
  · exact key _ _ (qualifyingNames_set _ i F n hi hF) rfl
  · exact key _ _ rfl (qualifyingNames_set _ i G n hi hG)

/-- C8 on concrete modules: `allNamedModule` and a module that differs from it in the
names of its local function, of its declaration and of its local global have the same
digest. -/
theorem C8_witness :
    (ModuleHasher.create.get
        ⟨[⟨"main", false, false⟩, ⟨"", false, true⟩, ⟨"printf", true, false⟩],
         [⟨"cache", false, true⟩, ⟨"table", false, false⟩]⟩).1
      = (ModuleHasher.create.get allNamedModule).1 ∧
    (ModuleHasher.create.get
        ⟨allNamedModule.functions.set 1 (GlobalValue.withName ⟨"helper", false, true⟩ ""),
         allNamedModule.globals⟩).1
      = (ModuleHasher.create.get allNamedModule).1 :=
  ⟨C8_fingerprint_depends_on_surface_only.1 _ allNamedModule (by decide) (by decide),
   C8_fingerprint_depends_on_surface_only.2.1 allNamedModule 1 ⟨"helper", false, true⟩ ""
     (by decide) (by decide)⟩

/-- C9, the input that refutes it: in `takenNameModule` function 1 has no name before
the run and the name the pass asks for is taken by function 0; after the run function
1 is called `anon.d41d8cd98f00b204e9800998ecf8427e.0.1`, which is not `anon.`, 32
characters, `.` and the decimal rendering of a number. -/
theorem C9_counterexample_suffixed_name :
    takenNameModule.functions[1]? = some ⟨"", false, false⟩ ∧
    (nameUnamedFunctions takenNameModule).2.functions[1]?
      = some ⟨"anon.d41d8cd98f00b204e9800998ecf8427e.0.1", false, false⟩ ∧
    ¬ ∃ (h : String) (k : Nat),
      "anon.d41d8cd98f00b204e9800998ecf8427e.0.1" = "anon." ++ h ++ "." ++ toString k ∧
      h.length = 32 := by
  refine ⟨by decide, by decide, ?_⟩
  rintro ⟨h, k, e, hlen⟩
  have hd := shape_drop _ h k e hlen
  have hdot : '.' ∈ (toString k).data := by
    rw [← hd]
    decide
  exact toString_nat_no_dot k hdot

/-- C9, amended: a function that had no name before a run of `nameUnamedFunctions` and
has fewer than `2^31` functions without a name before it has afterwards a name made of
`anon.`, then exactly 32 lowercase hexadecimal digits, then `.`, then the decimal
rendering of a natural number; that name is followed by `.` and one more decimal
number exactly when a function or global value of the module carried it before the
run. -/
theorem C9_name_format_unless_taken (M : Module) (i : Nat) (F : GlobalValue)
    (hi : M.functions[i]? = some F) (hF : F.hasName = false)
    (hk : countUnnamed (M.functions.take i) < 2 ^ 31) :
    ∃ (G : GlobalValue) (h : String) (k : Nat),
      (nameUnamedFunctions M).2.functions[i]? = some G ∧
      h.length = 32 ∧ (∀ c ∈ h.data, c ∈ "0123456789abcdef".data) ∧
      (toString k).data ≠ [] ∧ (∀ c ∈ (toString k).data, c ∈ "0123456789".data) ∧
      ("anon." ++ h ++ "." ++ toString k ∉ M.symbolTable →
        G.name = "anon." ++ h ++ "." ++ toString k) ∧
      ("anon." ++ h ++ "." ++ toString k ∈ M.symbolTable →
        ∃ N : Nat, G.name = "anon." ++ h ++ "." ++ toString k ++ "." ++ toString N) := by
  obtain ⟨n, hn, _, hfresh, hform⟩ := run_name M i F hi hF
  rw [anonName_natCast _ _ hk] at hform
  refine ⟨F.withName n, fingerprint M, countUnnamed (M.functions.take i), hn,
    fingerprint_length M, fingerprint_hex M, (toString_nat_digits _).1,
    (toString_nat_digits _).2, fun hfree => ?_, fun htaken => ?_⟩
  · rcases hform with e | ⟨N, e⟩
    · exact e
    · have := run_exact M i F hi hF (lt_trans hk (by norm_num))
        (by rw [anonName_natCast _ _ hk]; exact hfree)
      rw [hn, anonName_natCast _ _ hk] at this
      exact congrArg GlobalValue.name (Option.some.inj this)
  · rcases hform with e | ⟨N, e⟩
    · exact absurd (e ▸ htaken) hfresh
    · exact ⟨N, e⟩

/-- C9, amended, at the scenario of section 8, last function: the name is
`anon.c674bd9db27f385695e713d85b4f7188.2`. -/
theorem C9_witness :
    (nameUnamedFunctions scenario).2.functions[4]?
      = some ⟨"anon." ++ "c674bd9db27f385695e713d85b4f7188" ++ "." ++ toString 2,
          false, false⟩ ∧
    ∃ (G : GlobalValue) (h : String) (k : Nat),
      (nameUnamedFunctions scenario).2.functions[4]? = some G ∧
      h.length = 32 ∧ (∀ c ∈ h.data, c ∈ "0123456789abcdef".data) ∧
      (toString k).data ≠ [] ∧ (∀ c ∈ (toString k).data, c ∈ "0123456789".data) ∧
      ("anon." ++ h ++ "." ++ toString k ∉ scenario.symbolTable →
        G.name = "anon." ++ h ++ "." ++ toString k) ∧
      ("anon." ++ h ++ "." ++ toString k ∈ scenario.symbolTable →
        ∃ N : Nat, G.name = "anon." ++ h ++ "." ++ toString k ++ "." ++ toString N) :=
  ⟨by decide,
    C9_name_format_unless_taken scenario 4 ⟨"", false, false⟩ (by decide) (by decide)
      (by decide)⟩

/-- C11: a run of `nameUnamedFunctions` changes nothing but the name of the functions
that had none: the global values are the same list, the functions are as many and in
the same order, every function keeps its linkage and its declaration status, and
every function that had a name is left exactly as it was. -/
theorem C11_frame (M : Module) :
    (nameUnamedFunctions M).2.globals = M.globals ∧
    (nameUnamedFunctions M).2.functions.length = M.functions.length ∧
    ∀ (i : Nat) (F : GlobalValue), M.functions[i]? = some F →
      ∃ G, (nameUnamedFunctions M).2.functions[i]? = some G ∧
        G.isDeclaration = F.isDeclaration ∧ G.hasLocalLinkage = F.hasLocalLinkage ∧
        (F.hasName = true → G = F) := by
  rw [nameUnamedFunctions_eq]
  refine ⟨rfl, renamed_length _ _ _ _ _ _, fun i F hi => ?_⟩
  obtain ⟨G, hG, hR⟩ := forall₂_renames_getElem? (renamed_forall₂ M.globals (fingerprint M)
    M.functions [] 0 0) i F hi
  refine ⟨G, hG, hR.attributes.1, hR.attributes.2, fun hF => ?_⟩
  rcases hR with ⟨_, e⟩ | ⟨hf, _⟩
  · exact e
  · rw [hF] at hf; cases hf

/-- C11 at the scenario of section 8: the global `G` is untouched, `B` at position 2 is
untouched, and the function at position 1 keeps its attributes. -/
theorem C11_witness :
    (nameUnamedFunctions scenario).2.globals = [⟨"G", false, false⟩] ∧
    (nameUnamedFunctions scenario).2.functions[2]? = some ⟨"B", false, false⟩ ∧
    ∃ G, (nameUnamedFunctions scenario).2.functions[1]? = some G ∧
      G.isDeclaration = false ∧ G.hasLocalLinkage = false ∧
      ((GlobalValue.mk "" false false).hasName = true → G = ⟨"", false, false⟩) :=
  ⟨by decide, by decide, (C11_frame scenario).2.2 1 ⟨"", false, false⟩ (by decide)⟩

/-- C12: `get` returns a digest string for every module (32 characters, never the
empty string), and for every module without a qualifying function or global value
(each one is a declaration, has local linkage or has no name; this includes the empty
module) it returns the hexadecimal MD5 of the empty byte string,
`d41d8cd98f00b204e9800998ecf8427e`. -/
theorem C12_get_total_and_empty_digest :
    (∀ M : Module, (ModuleHasher.create.get M).1.length = 32) ∧
    (∀ M : Module,
      (∀ F ∈ M.functions,
        F.isDeclaration = true ∨ F.hasLocalLinkage = true ∨ F.hasName = false) →
      (∀ G ∈ M.globals,
        G.isDeclaration = true ∨ G.hasLocalLinkage = true ∨ G.hasName = false) →
      (ModuleHasher.create.get M).1 = MD5.stringifyResult (MD5.digest []) ∧
      (ModuleHasher.create.get M).1 = "d41d8cd98f00b204e9800998ecf8427e") := by
  refine ⟨fingerprint_length, fun M hf hg => ?_⟩
  have h : fingerprint M = MD5.stringifyResult (MD5.digest []) := by
    rw [fingerprint_hashedBytes, hashedBytes, qualifyingNames_eq_nil _ hf,
      qualifyingNames_eq_nil _ hg]
    rfl
  exact ⟨h, h.trans (by decide)⟩

/-- C12 at the empty module and at a module whose values are a local function, a
declaration, a function without a name and a local global. -/
theorem C12_witness :
    (ModuleHasher.create.get ⟨[], []⟩).1 = "d41d8cd98f00b204e9800998ecf8427e" ∧
    (ModuleHasher.create.get
      ⟨[⟨"helper", false, true⟩, ⟨"puts", true, false⟩, ⟨"", false, false⟩],
       [⟨"cache", false, true⟩]⟩).1 = "d41d8cd98f00b204e9800998ecf8427e" :=
  ⟨(C12_get_total_and_empty_digest.2 ⟨[], []⟩ (by decide) (by decide)).2,
   (C12_get_total_and_empty_digest.2 _ (by decide) (by decide)).2⟩

/-- C13, refuted: there is no module for which running the pass, introducing a new
function without a name anywhere in the function list (between `pre` and `post`) and
running the pass again leaves the new function with the name of another function of
the module, whether renamed by the first run or not. -/
theorem C13_counterexample_names_stay_distinct :
    ¬ ∃ (M : Module) (pre post : List GlobalValue) (F G G' : GlobalValue) (j : Nat),
      pre ++ post = (nameUnamedFunctions M).2.functions ∧
      F.hasName = false ∧ j ≠ pre.length ∧
      (nameUnamedFunctions ⟨pre ++ F :: post, (nameUnamedFunctions M).2.globals⟩).2.functions[
          pre.length]? = some G ∧
      (nameUnamedFunctions ⟨pre ++ F :: post, (nameUnamedFunctions M).2.globals⟩).2.functions[
          j]? = some G' ∧
      G.name = G'.name := by
  rintro ⟨M, pre, post, F, G, G', j, _, hF, hj, hG, hG', hname⟩
  have hi : (Module.mk (pre ++ F :: post) (nameUnamedFunctions M).2.globals).functions[
      pre.length]? = some F := by
    show (pre ++ F :: post)[pre.length]? = some F
    rw [List.getElem?_append_right (le_refl _)]
    simp
  exact run_unique _ _ j F G G' (Ne.symm hj) hi hF hG hG' hname

/-- C13, amended: the counter does not survive a run, the names stay distinct.
`localAnonModule` has one function without a name, with local linkage; the first run
calls it `anon.d41d8cd98f00b204e9800998ecf8427e.0`.  A new function without a name is
then introduced; the second run numbers it from 0 again and, the fingerprint being the
same, asks for the same name; the symbol table gives the new function that name
followed by `.1`. -/
theorem C13_second_run_asks_for_same_name :
    (nameUnamedFunctions localAnonModule).2.functions.map GlobalValue.name
      = ["anon.d41d8cd98f00b204e9800998ecf8427e.0"] ∧
    "anon." ++ (ModuleHasher.create.get
        (addFunction (nameUnamedFunctions localAnonModule).2 ⟨"", false, true⟩)).1
      ++ "." ++ toString (0 : Int) = "anon.d41d8cd98f00b204e9800998ecf8427e.0" ∧
    (nameUnamedFunctions
        (addFunction (nameUnamedFunctions localAnonModule).2 ⟨"", false, true⟩)).2.functions.map
        GlobalValue.name
      = ["anon.d41d8cd98f00b204e9800998ecf8427e.0",
         "anon.d41d8cd98f00b204e9800998ecf8427e.0.1"] := by
  decide

/-- C14: two modules for which the bytes of the qualifying function names followed by
the bytes of the qualifying global names are the same byte string have the same
fingerprint: neither the boundaries between names nor the kind of value enter it. -/
theorem C14_same_bytes_same_fingerprint (M N : Module)
    (h : ((((M.functions.filter fun F =>
              !F.isDeclaration && !F.hasLocalLinkage && F.hasName).map GlobalValue.name)
          ++ ((M.globals.filter fun G =>
              !G.isDeclaration && !G.hasLocalLinkage && G.hasName).map GlobalValue.name)).flatMap
            nameBytes)
        = ((((N.functions.filter fun F =>
              !F.isDeclaration && !F.hasLocalLinkage && F.hasName).map GlobalValue.name)
          ++ ((N.globals.filter fun G =>
              !G.isDeclaration && !G.hasLocalLinkage && G.hasName).map GlobalValue.name)).flatMap
            nameBytes)) :
    (ModuleHasher.create.get M).1 = (ModuleHasher.create.get N).1 := by
  have e : fingerprint M = fingerprint N := by
    rw [fingerprint_hashedBytes, fingerprint_hashedBytes]
    exact congrArg (fun b => MD5.stringifyResult (MD5.digest b)) h
  exact e

/-- C14 at the three modules of the claim: one defined external function `AB`; defined
external functions `A` then `B`; defined external function `A` and defined external
global `B`.  All three get the MD5 of `AB`. -/
theorem C14_witness :
    (ModuleHasher.create.get ⟨[⟨"AB", false, false⟩], []⟩).1
      = (ModuleHasher.create.get ⟨[⟨"A", false, false⟩, ⟨"B", false, false⟩], []⟩).1 ∧
    (ModuleHasher.create.get ⟨[⟨"A", false, false⟩, ⟨"B", false, false⟩], []⟩).1
      = (ModuleHasher.create.get ⟨[⟨"A", false, false⟩], [⟨"B", false, false⟩]⟩).1 ∧
    (ModuleHasher.create.get ⟨[⟨"AB", false, false⟩], []⟩).1
      = "b86fc6b051f63d73de262d4c34e3a0a9" :=
  ⟨C14_same_bytes_same_fingerprint _ _ (by decide),
   C14_same_bytes_same_fingerprint _ _ (by decide), by decide⟩

/-- C15: the bytes a fresh `ModuleHasher` feeds to MD5 for the module a run leaves
differ from the bytes it feeds for the module before the run exactly when the module
had a function without a name that is defined and has non-local linkage; when it has
none, the fingerprint of the renamed module is the fingerprint of the module before
the run, the one embedded in the assigned names. -/
theorem C15_renaming_feeds_back (M : Module) :
    (fedBytes (nameUnamedFunctions M).2 ≠ fedBytes M ↔
      ∃ F ∈ M.functions,
        F.hasName = false ∧ F.isDeclaration = false ∧ F.hasLocalLinkage = false) ∧
    ((¬ ∃ F ∈ M.functions,
        F.hasName = false ∧ F.isDeclaration = false ∧ F.hasLocalLinkage = false) →
      (ModuleHasher.create.get (nameUnamedFunctions M).2).1
        = (ModuleHasher.create.get M).1) := by
  have hall := renamed_forall₂ M.globals (fingerprint M) M.functions [] 0 0
  have hiff : (∃ F ∈ M.functions,
        F.hasName = false ∧ F.isDeclaration = false ∧ F.hasLocalLinkage = false)
      ↔ ∃ F ∈ M.functions, feedsBack F = true := by
    simp [feedsBack, and_assoc]
  have hsame : (¬ ∃ F ∈ M.functions, feedsBack F = true) →
      fedBytes (nameUnamedFunctions M).2 = fedBytes M := by
    intro hno
    have hno' : ∀ F ∈ M.functions, feedsBack F = false := by
      intro F hF
      by_contra hb
      exact hno ⟨F, hF, by simpa using hb⟩
    rw [nameUnamedFunctions_eq, fedBytes_eq_hashedBytes, fedBytes_eq_hashedBytes]
    simp only [hashedBytes, qualifyingNames_renamed_eq hall hno']
  rw [hiff]
  refine ⟨⟨fun hne => ?_, fun hex heq => ?_⟩, fun hno => ?_⟩
  · by_contra hno
    exact hne (hsame hno)
  · have hlt := (qualifyingNames_renamed_length hall).2 hex
    have hlen := congrArg List.length heq
    rw [nameUnamedFunctions_eq, fedBytes_eq_hashedBytes, fedBytes_eq_hashedBytes] at hlen
    simp only [hashedBytes, List.flatMap_append, List.length_append] at hlen
    omega
  · have e : fingerprint (nameUnamedFunctions M).2 = fingerprint M := by
      rw [fingerprint_fedBytes, fingerprint_fedBytes, hsame hno]
    exact e

/-- C15 on two modules: in the scenario of section 8 the functions without a name are
defined and external, and the fed bytes change; in `localAnonModule` the function
without a name is local, and the fingerprint after the run is the one in its name. -/
theorem C15_witness :
    fedBytes (nameUnamedFunctions scenario).2 ≠ fedBytes scenario ∧
    (ModuleHasher.create.get (nameUnamedFunctions localAnonModule).2).1
      = (ModuleHasher.create.get localAnonModule).1 ∧
    (nameUnamedFunctions localAnonModule).2.functions.map GlobalValue.name
      = ["anon." ++ (ModuleHasher.create.get (nameUnamedFunctions localAnonModule).2).1
          ++ ".0"] :=
  ⟨(C15_renaming_feeds_back scenario).1.2 (by decide),
   (C15_renaming_feeds_back localAnonModule).2 (by decide), by decide⟩

end NameAnonFunctionPass
